import Mathlib

/-
Verification of the zygrader core against its specification.

This file gives a shallow embedding, in Lean 4, of the correctness-sensitive
parts of the zygrader code base:

  * the lock-file manager            (src/zygrader/data/lock.py)
  * the lock audit-log recency guard (src/zygrader/data/lock.py)
  * submission score aggregation     (src/zygrader/data/model.py)
  * grade redistribution and mercy   (src/zygrader/admin.py)
  * the student identity reconciler  (src/zygrader/grade_puller.py)

Python strings manipulated character-by-character (lock file names, student
id strings) are embedded as `List Char`; Python dictionaries are embedded as
association lists in insertion order; Python sets are embedded as duplicate
free lists whose order stands for the (arbitrary) set iteration order;
Python floats are embedded as exact rationals; fallible code (KeyError,
ValueError) returns `Option`.
-/

namespace Zygrader

/-- A Python string viewed as its list of characters. -/
abbrev Str := List Char

/-! Embedding of the Python `str` operations used by `data/lock.py`:
`name.split(".")`, `".".join(parts)`, and `name.endswith(suffix)`. -/

/-- Embeds Python `s.split(".")`: splits at every `'.'`, keeping empty
segments, and yields `[s]` when there is no dot (never the empty list). -/
def splitOnDot : Str → List Str
  | [] => [[]]
  | c :: cs =>
    if c = '.' then [] :: splitOnDot cs
    else
      match splitOnDot cs with
      | [] => [[c]]
      | s :: rest => (c :: s) :: rest

/-- Embeds Python `".".join(parts)`. -/
def joinDot : List Str → Str
  | [] => []
  | [s] => s
  | s :: s' :: rest => s ++ '.' :: joinDot (s' :: rest)

/-- Embeds Python `s.endswith(t)` on character lists. -/
def strEndsWith (s t : Str) : Bool := decide (t <:+ s)

/-- Embeds Python `".".join(name.split(".")[1:])`, the lock-file matching
strategy of `is_locked` and `get_locked_netid` that strips the grader
identity segment from the front of a marker filename. -/
def dropFirstSegment (f : Str) : Str := joinDot ((splitOnDot f).drop 1)

/-- Embeds Python `name.split(".")[0]`, the grader identity segment. -/
def firstSegment (f : Str) : Str := (splitOnDot f).headD []

theorem splitOnDot_ne_nil (f : Str) : splitOnDot f ≠ [] := by
  cases f with
  | nil => simp [splitOnDot]
  | cons c cs =>
    simp only [splitOnDot]
    split
    · simp
    · cases h : splitOnDot cs <;> simp

theorem joinDot_splitOnDot (f : Str) : joinDot (splitOnDot f) = f := by
  induction f with
  | nil => rfl
  | cons c cs ih =>
    simp only [splitOnDot]
    split
    · rename_i hc
      cases h : splitOnDot cs with
      | nil => exact absurd h (splitOnDot_ne_nil cs)
      | cons s rest =>
        rw [h] at ih
        simp [joinDot, hc, ih]
    · cases h : splitOnDot cs with
      | nil => exact absurd h (splitOnDot_ne_nil cs)
      | cons s rest =>
        rw [h] at ih
        cases rest with
        | nil => simpa [joinDot] using congrArg (c :: ·) ih
        | cons r t =>
          simp only [joinDot] at ih ⊢
          simpa using congrArg (c :: ·) ih

theorem splitOnDot_of_not_mem (f : Str) (h : '.' ∉ f) : splitOnDot f = [f] := by
  induction f with
  | nil => rfl
  | cons c cs ih =>
    simp only [List.mem_cons, not_or] at h
    simp only [splitOnDot, if_neg (Ne.symm h.1)]
    rw [ih h.2]

theorem dropFirstSegment_of_not_mem (f : Str) (h : '.' ∉ f) :
    dropFirstSegment f = [] := by
  simp [dropFirstSegment, splitOnDot_of_not_mem f h, joinDot]

/-- A string containing a dot decomposes as its first dot-separated segment,
a dot, and the join of the remaining segments. -/
theorem seg_decomp (f : Str) (h : '.' ∈ f) :
    f = firstSegment f ++ '.' :: dropFirstSegment f := by
  induction f with
  | nil => cases h
  | cons c cs ih =>
    by_cases hc : c = '.'
    · subst hc
      have hsp : splitOnDot ('.' :: cs) = [] :: splitOnDot cs := by
        simp [splitOnDot]
      simp only [firstSegment, dropFirstSegment, hsp, List.headD,
        List.drop_one, List.tail_cons, List.nil_append]
      rw [joinDot_splitOnDot]
    · have hcs : '.' ∈ cs := by
        rcases List.mem_cons.mp h with h' | h'
        · exact absurd h'.symm hc
        · exact h'
      have ihr := ih hcs
      cases hsp : splitOnDot cs with
      | nil => exact absurd hsp (splitOnDot_ne_nil cs)
      | cons s rest =>
        have hfs : firstSegment cs = s := by simp [firstSegment, hsp]
        cases rest with
        | nil =>
          exfalso
          have hcs_eq : cs = s := by
            have hj := joinDot_splitOnDot cs
            rw [hsp] at hj
            simpa [joinDot] using hj.symm
          have hds : dropFirstSegment cs = [] := by
            simp [dropFirstSegment, hsp, joinDot]
          rw [hfs, hds, hcs_eq] at ihr
          have hlen := congrArg List.length ihr
          simp at hlen
        | cons r t =>
          have hsp2 : splitOnDot (c :: cs) = (c :: s) :: r :: t := by
            simp [splitOnDot, if_neg hc, hsp]
          have hds : dropFirstSegment cs = joinDot (r :: t) := by
            simp [dropFirstSegment, hsp]
          rw [hfs, hds] at ihr
          simp only [firstSegment, dropFirstSegment, hsp2, List.headD,
            List.drop_one, List.tail_cons]
          calc c :: cs = c :: (s ++ '.' :: joinDot (r :: t)) := by rw [← ihr]
            _ = (c :: s) ++ '.' :: joinDot (r :: t) := rfl

/-! Embedding of the lock manager (src/zygrader/data/lock.py).

The lock directory is the set of marker filenames, embedded as a list of
`Str`; the current grader identity (`utils.get_username()`, whose code is
not part of this repository) is an explicit parameter.  Students and labs
enter `lock.py` only through `get_unique_name()`, so they are embedded by
those unique-name strings. -/

/-- The literal `".lock"` suffix of marker filenames. -/
def lockExt : Str := ['.', 'l', 'o', 'c', 'k']

/-- Embeds `get_lock_files`: all names in the directory ending in ".lock". -/
def get_lock_files (dir : List Str) : List Str :=
  dir.filter (fun l => strEndsWith l lockExt)

/-- Embeds `get_lock_file_path` (basename only; the directory prefix added
by `os.path.join` is dropped since the state is the set of basenames):
`username.lab.student.lock`, or `username.student.lock` without a lab. -/
def get_lock_file_path (username : Str) (lab : Option Str) (student : Str) : Str :=
  match lab with
  | some lab_name => username ++ '.' :: (lab_name ++ '.' :: (student ++ lockExt))
  | none => username ++ '.' :: (student ++ lockExt)

/-- Embeds `is_locked`: strip the grader segment from the queried path and
from each marker file and compare the remainders for equality. -/
def is_locked (dir : List Str) (username : Str) (lab : Option Str)
    (student : Str) : Bool :=
  let lock_path_end := dropFirstSegment (get_lock_file_path username lab student)
  (get_lock_files dir).any (fun lock => decide (dropFirstSegment lock = lock_path_end))

/-- Embeds `get_locked_netid`: the first dot-segment of the first marker
file that merely ends with the stripped path, or the empty string. -/
def get_locked_netid (dir : List Str) (username : Str) (lab : Option Str)
    (student : Str) : Str :=
  let lock_path_end := dropFirstSegment (get_lock_file_path username lab student)
  match (get_lock_files dir).find? (fun lock => strEndsWith lock lock_path_end) with
  | some lock => firstSegment lock
  | none => []

/-- Embeds the marker-file effect of `lock`: `open(lock, "w").close()`
creates the file (a no-op on the name set when it already exists).  The
audit-log append is modelled separately by `log_append`. -/
def lock (dir : List Str) (username : Str) (lab : Option Str)
    (student : Str) : List Str :=
  let f := get_lock_file_path username lab student
  if f ∈ dir then dir else dir ++ [f]

/-- Embeds the marker-file effect of `unlock`: `os.remove` the file if it
exists (a no-op otherwise). -/
def unlock (dir : List Str) (username : Str) (lab : Option Str)
    (student : Str) : List Str :=
  let f := get_lock_file_path username lab student
  dir.erase f

theorem lockExt_suffix (username : Str) (lab : Option Str) (student : Str) :
    lockExt <:+ get_lock_file_path username lab student := by
  cases lab with
  | some lab_name =>
    exact ⟨username ++ '.' :: (lab_name ++ '.' :: student), by
      simp [get_lock_file_path]⟩
  | none =>
    exact ⟨username ++ '.' :: student, by simp [get_lock_file_path]⟩

theorem dot_mem_lock_file_path (username : Str) (lab : Option Str) (student : Str) :
    '.' ∈ get_lock_file_path username lab student := by
  cases lab <;> simp [get_lock_file_path]

theorem lock_file_path_getLast? (username : Str) (lab : Option Str) (student : Str) :
    (get_lock_file_path username lab student).getLast? = some 'k' := by
  cases lab with
  | some lab_name =>
    have : get_lock_file_path username (some lab_name) student =
        (username ++ '.' :: (lab_name ++ '.' :: (student ++ ['.', 'l', 'o', 'c']))) ++ ['k'] := by
      simp [get_lock_file_path, lockExt]
    rw [this, List.getLast?_concat]
  | none =>
    have : get_lock_file_path username none student =
        (username ++ '.' :: (student ++ ['.', 'l', 'o', 'c'])) ++ ['k'] := by
      simp [get_lock_file_path, lockExt]
    rw [this, List.getLast?_concat]

/-- The stripped remainder of a well-formed lock path is never empty. -/
theorem lock_path_end_ne_nil (username : Str) (lab : Option Str) (student : Str) :
    dropFirstSegment (get_lock_file_path username lab student) ≠ [] := by
  intro hnil
  have hdot := dot_mem_lock_file_path username lab student
  have hdec := seg_decomp _ hdot
  rw [hnil] at hdec
  have hlast : (get_lock_file_path username lab student).getLast? = some '.' := by
    rw [hdec]
    exact List.getLast?_concat _
  rw [lock_file_path_getLast? username lab student] at hlast
  simp at hlast

theorem mem_lock (dir : List Str) (username : Str) (lab : Option Str) (student : Str) :
    get_lock_file_path username lab student ∈ lock dir username lab student := by
  by_cases h : get_lock_file_path username lab student ∈ dir
  · simp [lock, h]
  · simp [lock, h]

/-- C1 (amended). Immediately after `lock(S, L)` the query `is_locked(S, L)`
is true, for every prior directory state.  Immediately after `unlock(S, L)`
the query `is_locked(S, L)` is false provided every matching marker file in
the directory was the invoking grader's own; `unlock` removes only the
current grader's marker, so a matching marker left by a different grader
keeps `is_locked` true (see the counterexample). -/
theorem c1_lock_unlock_is_locked (dir : List Str) (username student : Str)
    (lab : Option Str) :
    is_locked (lock dir username lab student) username lab student = true
    ∧ (dir.Nodup →
       (∀ f ∈ dir, strEndsWith f lockExt = true →
         dropFirstSegment f = dropFirstSegment (get_lock_file_path username lab student) →
         f = get_lock_file_path username lab student) →
       is_locked (unlock dir username lab student) username lab student = false) := by
  constructor
  · simp only [is_locked, get_lock_files, List.any_eq_true, List.mem_filter]
    refine ⟨get_lock_file_path username lab student,
      ⟨mem_lock dir username lab student, ?_⟩, by simp⟩
    exact decide_eq_true (lockExt_suffix username lab student)
  · intro hnd honly
    rw [Bool.eq_false_iff]
    intro htrue
    simp only [is_locked, get_lock_files, List.any_eq_true, List.mem_filter] at htrue
    obtain ⟨f, ⟨hf_er, hf_ext⟩, hf_eq⟩ := htrue
    have hf_dir : f ∈ dir := List.mem_of_mem_erase hf_er
    have hf_own : f = get_lock_file_path username lab student :=
      honly f hf_dir hf_ext (of_decide_eq_true hf_eq)
    rw [hf_own] at hf_er
    unfold unlock at hf_er
    exact absurd rfl ((hnd.mem_erase_iff.mp hf_er).1)

/-- C1, counterexample to the claim as stated: with a matching marker left
by grader `ta2`, grader `ta1`'s `unlock` removes only `ta1`'s own marker,
and `is_locked` is still true immediately after `unlock` completes. -/
theorem c1_counterexample :
    is_locked
      (unlock ["ta2.Lab_10.Stu_5.lock".toList, "ta1.Lab_10.Stu_5.lock".toList]
        "ta1".toList (some "Lab_10".toList) "Stu_5".toList)
      "ta1".toList (some "Lab_10".toList) "Stu_5".toList = true := by decide

/-- Witness for `c1_lock_unlock_is_locked` at a concrete directory. -/
theorem c1_lock_unlock_is_locked_witness :
    is_locked
      (lock ["ta1.Lab_10.Stu_5.lock".toList] "ta1".toList
        (some "Lab_10".toList) "Stu_5".toList)
      "ta1".toList (some "Lab_10".toList) "Stu_5".toList = true
    ∧ is_locked
      (unlock ["ta1.Lab_10.Stu_5.lock".toList] "ta1".toList
        (some "Lab_10".toList) "Stu_5".toList)
      "ta1".toList (some "Lab_10".toList) "Stu_5".toList = false :=
  ⟨(c1_lock_unlock_is_locked ["ta1.Lab_10.Stu_5.lock".toList] "ta1".toList
      "Stu_5".toList (some "Lab_10".toList)).1,
   (c1_lock_unlock_is_locked ["ta1.Lab_10.Stu_5.lock".toList] "ta1".toList
      "Stu_5".toList (some "Lab_10".toList)).2 (by decide) (by decide)⟩

/-- C9 (amended). If `is_locked` reports a lock then `get_locked_netid`
returns a non-empty grader identity (provided every marker filename carries
a non-empty grader segment).  The converse direction of the claim fails:
`get_locked_netid` matches by `endswith` while `is_locked` compares the
whole grader-stripped remainder, so `get_locked_netid` can name a grader
while `is_locked` is false (see the counterexample). -/
theorem c9_is_locked_get_locked_netid (dir : List Str) (username student : Str)
    (lab : Option Str) :
    (∀ f ∈ dir, firstSegment f ≠ []) →
    is_locked dir username lab student = true →
    get_locked_netid dir username lab student ≠ [] := by
  intro hseg hlock
  simp only [is_locked, get_lock_files, List.any_eq_true, List.mem_filter] at hlock
  obtain ⟨f, ⟨hf_dir, hf_ext⟩, hf_eq⟩ := hlock
  have hf_eq' : dropFirstSegment f =
      dropFirstSegment (get_lock_file_path username lab student) :=
    of_decide_eq_true hf_eq
  have hdot : '.' ∈ f := by
    by_contra hno
    have := dropFirstSegment_of_not_mem f hno
    rw [this] at hf_eq'
    exact lock_path_end_ne_nil username lab student hf_eq'.symm
  have hdec := seg_decomp f hdot
  rw [hf_eq'] at hdec
  have hends : strEndsWith f
      (dropFirstSegment (get_lock_file_path username lab student)) = true := by
    refine decide_eq_true ⟨firstSegment f ++ ['.'], ?_⟩
    calc (firstSegment f ++ ['.']) ++
          dropFirstSegment (get_lock_file_path username lab student)
        = firstSegment f ++
          '.' :: dropFirstSegment (get_lock_file_path username lab student) := by
          simp
      _ = f := hdec.symm
  have hfind : ∃ g ∈ get_lock_files dir,
      (strEndsWith g (dropFirstSegment (get_lock_file_path username lab student))) = true :=
    ⟨f, List.mem_filter.mpr ⟨hf_dir, hf_ext⟩, hends⟩
  cases hres : (get_lock_files dir).find? (fun l =>
      strEndsWith l (dropFirstSegment (get_lock_file_path username lab student))) with
  | none =>
    exfalso
    obtain ⟨g, hg_mem, hg⟩ := hfind
    have := List.find?_eq_none.mp hres g hg_mem
    rw [hg] at this
    exact this rfl
  | some g =>
    have hg_mem : g ∈ get_lock_files dir := List.mem_of_find?_eq_some hres
    have hg_dir : g ∈ dir := (List.mem_filter.mp hg_mem).1
    simp only [get_locked_netid, hres]
    exact hseg g hg_dir

/-- C9, counterexample to the stated equivalence: a marker whose lab
segment merely ends with the queried lab name makes `get_locked_netid`
return a grader while `is_locked` is false. -/
theorem c9_counterexample :
    get_locked_netid ["ta1.XLab_1.Stu_1.lock".toList] "me".toList
        (some "Lab_1".toList) "Stu_1".toList ≠ []
    ∧ is_locked ["ta1.XLab_1.Stu_1.lock".toList] "me".toList
        (some "Lab_1".toList) "Stu_1".toList = false := by decide

/-- Witness for `c9_is_locked_get_locked_netid` at a concrete directory. -/
theorem c9_is_locked_get_locked_netid_witness :
    get_locked_netid ["ta1.Lab_1.Stu_1.lock".toList] "me".toList
      (some "Lab_1".toList) "Stu_1".toList ≠ [] :=
  c9_is_locked_get_locked_netid ["ta1.Lab_1.Stu_1.lock".toList] "me".toList
    "Stu_1".toList (some "Lab_1".toList) (by decide) (by decide)

/-! Embedding of the recency guard `was_recently_locked`
(src/zygrader/data/lock.py).

An audit-log line is embedded as its parsed fields in the order the code
reads them (`line[0]` the timestamp, `line[2]` the student unique name,
`line[3]` the lab unique name or "N/A", `line[4]` the grader netid);
timestamps are integers ordered as the datetimes are, and the human
formatting `strftime("%I:%M %p - %m-%d-%Y")` is abstracted by returning
the timestamp itself. -/

structure LockRow where
  time : Int
  student : String
  lab : String
  ta : String
deriving DecidableEq

/-- Embeds the condition `(not lab or row.lab == lab_name)`: with no lab it
is vacuously true and the record's lab field is not consulted. -/
def lab_matches (lab_name : Option String) (row : LockRow) : Bool :=
  match lab_name with
  | none => true
  | some lab => decide (row.lab = lab)

/-- Embeds the `for row in reversed(rows)` scan of `was_recently_locked`:
on a student (and, with a lab, lab) match, a record by the querying grader
itself is skipped (`continue`), any other match returns it. -/
def scan_rows (student_name : String) (lab_name : Option String) (netid : String) :
    List LockRow → Bool × Option Int × Option String
  | [] => (false, none, none)
  | row :: rest =>
    if row.student = student_name ∧ lab_matches lab_name row = true then
      if row.ta = netid then scan_rows student_name lab_name netid rest
      else (true, some row.time, some row.ta)
    else scan_rows student_name lab_name netid rest

/-- Embeds `was_recently_locked(student, lab, netid, range)`: keep the rows
newer than `now - range` minutes, then scan them newest-first.  A missing
log file is the empty log; Python's early return on an empty filtered row
list coincides with scanning the empty list. -/
def was_recently_locked (log : List LockRow) (now : Int) (student_name : String)
    (lab_name : Option String) (netid : String) (range : Int) :
    Bool × Option Int × Option String :=
  let oldest_allowed := now - range
  let rows := log.filter (fun row => decide (oldest_allowed < row.time))
  scan_rows student_name lab_name netid rows.reverse

theorem scan_rows_self_excluded (student_name : String) (lab_name : Option String)
    (netid : String) (rows : List LockRow) :
    (scan_rows student_name lab_name netid rows).1 = true →
    (scan_rows student_name lab_name netid rows).2.2 ≠ some netid
    ∧ ∃ row ∈ rows, (scan_rows student_name lab_name netid rows).2.2 = some row.ta := by
  induction rows with
  | nil => intro h; simp [scan_rows] at h
  | cons row rest ih =>
    intro h
    simp only [scan_rows] at h ⊢
    split at h
    · split at h
      · rcases ih h with ⟨h1, row', hrow', h2⟩
        rename_i hmatch hta
        rw [if_pos hmatch, if_pos hta]
        exact ⟨h1, row', List.mem_cons_of_mem _ hrow', h2⟩
      · rename_i hmatch hta
        rw [if_pos hmatch, if_neg hta]
        refine ⟨?_, row, List.mem_cons_self _ _, rfl⟩
        intro hcontra
        exact hta (Option.some.inj hcontra)
    · rename_i hmatch
      rcases ih h with ⟨h1, row', hrow', h2⟩
      rw [if_neg hmatch]
      exact ⟨h1, row', List.mem_cons_of_mem _ hrow', h2⟩

theorem scan_rows_all_self (student_name : String) (lab_name : Option String)
    (netid : String) (rows : List LockRow) (h : ∀ row ∈ rows, row.ta = netid) :
    (scan_rows student_name lab_name netid rows).1 = false := by
  induction rows with
  | nil => simp [scan_rows]
  | cons row rest ih =>
    have hrest : ∀ r ∈ rest, r.ta = netid := fun r hr =>
      h r (List.mem_cons_of_mem _ hr)
    simp only [scan_rows]
    split
    · rw [if_pos (h row (List.mem_cons_self _ _))]
      exact ih hrest
    · exact ih hrest

/-- C6 (confirmed). For every audit log, student, lab-or-None and window
of size at least zero: a positive `was_recently_locked` answer always names
a grader different from the querying `netid`, and a log whose every record
was made by `netid` itself never produces a positive answer. -/
theorem c6_was_recently_locked_self_excluded (log : List LockRow) (now : Int)
    (student_name : String) (lab_name : Option String) (netid : String)
    (range : Int) (_hrange : 0 ≤ range) :
    ((was_recently_locked log now student_name lab_name netid range).1 = true →
      (was_recently_locked log now student_name lab_name netid range).2.2 ≠ some netid)
    ∧ ((∀ row ∈ log, row.ta = netid) →
      (was_recently_locked log now student_name lab_name netid range).1 = false) := by
  constructor
  · intro h
    exact (scan_rows_self_excluded student_name lab_name netid _ h).1
  · intro hall
    refine scan_rows_all_self student_name lab_name netid _ ?_
    intro row hrow
    rw [List.mem_reverse] at hrow
    exact hall row (List.mem_filter.mp hrow).1

/-- Witness for `c6_was_recently_locked_self_excluded`: a concrete log in
which another grader's record is found and reported. -/
theorem c6_was_recently_locked_self_excluded_witness :
    (was_recently_locked [⟨5, "Stu_1", "N/A", "ta2"⟩] 10 "Stu_1" none "ta1" 10).2.2
      ≠ some "ta1"
    ∧ (was_recently_locked [⟨5, "Stu_1", "N/A", "ta1"⟩] 10 "Stu_1" none "ta1" 10).1
      = false :=
  ⟨(c6_was_recently_locked_self_excluded [⟨5, "Stu_1", "N/A", "ta2"⟩] 10 "Stu_1"
      none "ta1" 10 (by decide)).1 (by decide),
   (c6_was_recently_locked_self_excluded [⟨5, "Stu_1", "N/A", "ta1"⟩] 10 "Stu_1"
      none "ta1" 10 (by decide)).2 (by decide)⟩

theorem scan_rows_none_found_iff (student_name : String) (netid : String)
    (rows : List LockRow) :
    (scan_rows student_name none netid rows).1 = true ↔
    ∃ row ∈ rows, row.student = student_name ∧ row.ta ≠ netid := by
  induction rows with
  | nil => simp [scan_rows]
  | cons row rest ih =>
    simp only [scan_rows]
    by_cases hmatch : row.student = student_name
    · rw [if_pos (⟨hmatch, rfl⟩ : row.student = student_name ∧
        lab_matches none row = true)]
      by_cases hta : row.ta = netid
      · rw [if_pos hta, ih]
        constructor
        · rintro ⟨r, hr, h1, h2⟩
          exact ⟨r, List.mem_cons_of_mem _ hr, h1, h2⟩
        · rintro ⟨r, hr, h1, h2⟩
          rcases List.mem_cons.mp hr with rfl | hr'
          · exact absurd hta h2
          · exact ⟨r, hr', h1, h2⟩
      · rw [if_neg hta]
        simp only [true_iff]
        exact ⟨row, List.mem_cons_self _ _, hmatch, hta⟩
    · rw [if_neg (by simp [hmatch]), ih]
      constructor
      · rintro ⟨r, hr, h1, h2⟩
        exact ⟨r, List.mem_cons_of_mem _ hr, h1, h2⟩
      · rintro ⟨r, hr, h1, h2⟩
        rcases List.mem_cons.mp hr with rfl | hr'
        · exact absurd h1 hmatch
        · exact ⟨r, hr', h1, h2⟩

/-- C5 (amended). With `lab = None`, `was_recently_locked` matches records
on the student name alone — the record's lab field is never consulted, so
LAB-type records for the student (by another grader, within the window) do
make it return `found = true`; it does not restrict itself to email-only
("N/A") records. -/
theorem c5_was_recently_locked_none_ignores_lab (log : List LockRow) (now : Int)
    (student_name netid : String) (range : Int) :
    (was_recently_locked log now student_name none netid range).1 = true ↔
    ∃ row ∈ log, now - range < row.time ∧ row.student = student_name
      ∧ row.ta ≠ netid := by
  rw [was_recently_locked, scan_rows_none_found_iff]
  constructor
  · rintro ⟨row, hrow, h1, h2⟩
    rw [List.mem_reverse, List.mem_filter] at hrow
    exact ⟨row, hrow.1, of_decide_eq_true hrow.2, h1, h2⟩
  · rintro ⟨row, hrow, ht, h1, h2⟩
    refine ⟨row, ?_, h1, h2⟩
    rw [List.mem_reverse, List.mem_filter]
    exact ⟨hrow, decide_eq_true ht⟩

/-- C5, counterexample to the claim as stated: a recent LAB-type record
("Lab_1", not "N/A") for the student by another grader makes the
`lab = None` query return `found = true`. -/
theorem c5_counterexample :
    (was_recently_locked [⟨5, "Stu_1", "Lab_1", "ta2"⟩] 10 "Stu_1" none "ta1" 10).1
      = true
    ∧ (⟨5, "Stu_1", "Lab_1", "ta2"⟩ : LockRow).lab ≠ "N/A" := by
  constructor
  · rfl
  · decide

/-- Witness for `c5_was_recently_locked_none_ignores_lab` at a concrete log. -/
theorem c5_was_recently_locked_none_ignores_lab_witness :
    (was_recently_locked [⟨5, "Stu_1", "Lab_1", "ta2"⟩] 10 "Stu_1" none "ta1" 10).1
      = true :=
  (c5_was_recently_locked_none_ignores_lab [⟨5, "Stu_1", "Lab_1", "ta2"⟩] 10
    "Stu_1" "ta1" 10).mpr
    ⟨⟨5, "Stu_1", "Lab_1", "ta2"⟩, List.mem_cons_self _ _, by decide, rfl, by decide⟩

/-! Embedding of the score-aggregation slice of
`Submission.construct_submission` (src/zygrader/data/model.py).

A part's status code is one of the `Zybooks` result constants (defined in
zybooks.py, outside this repository's sources); only their distinctness is
used.  Part scores are embedded as exact rationals.  `lab.options` enters
only through its optional `"max_score"` entry; a missing entry makes the
Python dictionary access `self.lab.options["max_score"]` raise `KeyError`,
embedded as `none`. -/

inductive ZyCode where
  | ok
  | no_submission
  | compile_error
  | bad_zip
deriving DecidableEq

structure SubPart where
  code : ZyCode
  score : ℚ
  max_score : ℚ
deriving DecidableEq

/-- One step of the `for part in self.response["parts"]` loop: accumulate
score and max-score over the parts that have a submission, and flag
`incorrect_max` on a missing part or a zero per-part max. -/
def score_step (acc : ℚ × ℚ × Bool) (part : SubPart) : ℚ × ℚ × Bool :=
  let (score, max_score, incorrect_max) := acc
  if part.code ≠ ZyCode.no_submission then
    (score + part.score, max_score + part.max_score,
     incorrect_max || decide (part.max_score = 0))
  else (score, max_score, true)

/-- Embeds the score/max-score computation of `construct_submission`:
returns the aggregate `(score, max_score)` pair, or `none` for the
`KeyError` raised by `self.lab.options["max_score"]` when `incorrect_max`
was flagged and the lab options carry no `max_score` entry. -/
def construct_submission_scores (parts : List SubPart)
    (options_max_score : Option ℚ) : Option (ℚ × ℚ) :=
  let st := parts.foldl score_step (0, 0, false)
  if st.2.2 then
    match options_max_score with
    | some m => some (st.1, m)
    | none => none
  else some (st.1, st.2.1)

theorem score_step_fixed_true (parts : List SubPart) (s m : ℚ) :
    (parts.foldl score_step (s, m, true)).2.2 = true := by
  induction parts generalizing s m with
  | nil => rfl
  | cons part rest ih =>
    rw [List.foldl_cons]
    by_cases hc : part.code = ZyCode.no_submission
    · have hstep : score_step (s, m, true) part = (s, m, true) := by
        simp [score_step, hc]
      rw [hstep]
      exact ih s m
    · have hstep : score_step (s, m, true) part =
          (s + part.score, m + part.max_score, true) := by
        simp [score_step, hc]
      rw [hstep]
      exact ih (s + part.score) (m + part.max_score)

theorem score_fold_incorrect_of_missing (parts : List SubPart) (s m : ℚ)
    (b : Bool) (h : ∃ p ∈ parts, p.code = ZyCode.no_submission) :
    (parts.foldl score_step (s, m, b)).2.2 = true := by
  induction parts generalizing s m b with
  | nil => simp at h
  | cons part rest ih =>
    obtain ⟨p, hp_mem, hp⟩ := h
    rw [List.foldl_cons]
    by_cases hc : part.code = ZyCode.no_submission
    · have hstep : score_step (s, m, b) part = (s, m, true) := by
        simp [score_step, hc]
      rw [hstep]
      exact score_step_fixed_true rest s m
    · have hp_mem' : p ∈ rest := by
        rcases List.mem_cons.mp hp_mem with rfl | h'
        · exact absurd hp hc
        · exact h'
      have hstep : score_step (s, m, b) part =
          (s + part.score, m + part.max_score, b || decide (part.max_score = 0)) := by
        simp [score_step, hc]
      rw [hstep]
      exact ih _ _ _ ⟨p, hp_mem', hp⟩

theorem score_fold_score (parts : List SubPart) (s m : ℚ) (b : Bool) :
    (parts.foldl score_step (s, m, b)).1 =
      s + ((parts.filter (fun p => p.code ≠ ZyCode.no_submission)).map
            (fun p => p.score)).sum := by
  induction parts generalizing s m b with
  | nil => simp
  | cons part rest ih =>
    rw [List.foldl_cons]
    by_cases hc : part.code = ZyCode.no_submission
    · rw [List.filter_cons_of_neg (by simp [hc])]
      have hstep : score_step (s, m, b) part = (s, m, true) := by
        simp [score_step, hc]
      rw [hstep]
      exact ih s m true
    · rw [List.filter_cons_of_pos (by simp [hc]), List.map_cons, List.sum_cons]
      have hstep : score_step (s, m, b) part =
          (s + part.score, m + part.max_score, b || decide (part.max_score = 0)) := by
        simp [score_step, hc]
      rw [hstep, ih]
      ring

/-- C4 (amended). When the lab's options carry no `max_score` entry and
some part has no submission, `construct_submission` does not complete: the
flagged `incorrect_max` makes it read `self.lab.options["max_score"]`,
which raises `KeyError`.  The aggregate max-score is never derived from
the available parts' reported maxima in that case; with the option present
it is replaced wholesale by the option's value (the awarded score is still
the sum over the parts that do have submissions). -/
theorem c4_construct_submission_missing_part (parts : List SubPart)
    (h : ∃ p ∈ parts, p.code = ZyCode.no_submission) :
    construct_submission_scores parts none = none
    ∧ ∀ m : ℚ, construct_submission_scores parts (some m) =
        some (((parts.filter (fun p => p.code ≠ ZyCode.no_submission)).map
                (fun p => p.score)).sum, m) := by
  have hflag := score_fold_incorrect_of_missing parts 0 0 false h
  have hscore := score_fold_score parts 0 0 false
  constructor
  · simp [construct_submission_scores, hflag]
  · intro m
    simp [construct_submission_scores, hflag, hscore]

/-- C4, counterexample to the claim as stated: one part missing, one part
submitted with reported max 10, no `max_score` option — the claim predicts
successful completion with aggregate max-score 10, but the code raises
`KeyError` (embedded as `none`). -/
theorem c4_counterexample :
    construct_submission_scores
      [⟨ZyCode.no_submission, 0, 0⟩, ⟨ZyCode.ok, 5, 10⟩] none = none
    ∧ construct_submission_scores
      [⟨ZyCode.no_submission, 0, 0⟩, ⟨ZyCode.ok, 5, 10⟩] none ≠ some (5, 10) := by
  constructor
  · rfl
  · decide

/-- Witness for `c4_construct_submission_missing_part` at a concrete
submission. -/
theorem c4_construct_submission_missing_part_witness :
    construct_submission_scores
      [⟨ZyCode.no_submission, 0, 0⟩, ⟨ZyCode.ok, 5, 10⟩] none = none
    ∧ construct_submission_scores
      [⟨ZyCode.no_submission, 0, 0⟩, ⟨ZyCode.ok, 5, 10⟩] (some 20) =
      some ((([⟨ZyCode.no_submission, 0, 0⟩, ⟨ZyCode.ok, 5, 10⟩] :
          List SubPart).filter (fun p => p.code ≠ ZyCode.no_submission)).map
            (fun p => p.score) |>.sum, 20) :=
  ⟨(c4_construct_submission_missing_part
      [⟨ZyCode.no_submission, 0, 0⟩, ⟨ZyCode.ok, 5, 10⟩]
      ⟨⟨ZyCode.no_submission, 0, 0⟩, List.mem_cons_self _ _, rfl⟩).1,
   (c4_construct_submission_missing_part
      [⟨ZyCode.no_submission, 0, 0⟩, ⟨ZyCode.ok, 5, 10⟩]
      ⟨⟨ZyCode.no_submission, 0, 0⟩, List.mem_cons_self _ _, rfl⟩).2 20⟩

/-! Embedding of the grade aggregation and redistribution logic
(src/zygrader/admin.py, `_sum_scores`, `_combined_score`,
`_give_score_to_assignments`, `_apply_midterm_mercy`).

A gradebook row and the points-out-of row are embedded as functions from
assignment (column) name to an exact rational; the Python
`float(mapping[a]) if mapping[a] else 0.0` reading of a cell is the
identity in this embedding (a blank cell is 0). -/

/-- Embeds `_sum_scores(mapping, assignment_names)`. -/
def sum_scores (mapping : String → ℚ) (assignment_names : List String) : ℚ :=
  (assignment_names.map mapping).sum

/-- Embeds `_combined_score(assignment_names, student, points_out_of)`.
Python raises `ZeroDivisionError` on a zero points total; theorems about
this function carry positivity hypotheses keeping them inside the domain
where the Python computation is defined. -/
def combined_score (assignment_names : List String)
    (student points_out_of : String → ℚ) : ℚ :=
  sum_scores student assignment_names / sum_scores points_out_of assignment_names

/-- The sort key of `sorted((float(points_out_of[a]), a) for a in names)`:
lexicographic comparison of (point value, assignment name) tuples. -/
def dist_le (x y : ℚ × String) : Prop :=
  x.1 < y.1 ∨ (x.1 = y.1 ∧ x.2 ≤ y.2)

instance : DecidableRel dist_le := fun x y => by
  unfold dist_le
  infer_instance

/-- Embeds the `point_distro` list: the (max, name) pairs sorted ascending. -/
def point_distro (assignment_names : List String)
    (points_out_of : String → ℚ) : List (ℚ × String) :=
  List.insertionSort dist_le (assignment_names.map (fun a => (points_out_of a, a)))

/-- Embeds the distribution loop of `_give_score_to_assignments`: assign
each assignment `min(point_max, points_left_to_distribute)`, subtract, and
break as soon as nothing is left; returns the updated row and the
remaining (undistributed) points. -/
def distribute : (String → ℚ) → ℚ → List (ℚ × String) → (String → ℚ) × ℚ
  | student, left, [] => (student, left)
  | student, left, (point_max, assignment) :: rest =>
    let points_to_give := min point_max left
    let student' := fun b => if b = assignment then points_to_give else student b
    let left' := left - points_to_give
    if left' ≤ 0 then (student', left')
    else distribute student' left' rest

/-- Embeds `_give_score_to_assignments(assignment_names, student, score,
points_out_of)`: distribute `score * points_total` over the sorted
assignments and dump any positive leftover onto the highest-value
assignment (`point_distro[-1]`; on an empty distro Python would raise
`IndexError`, which cannot be reached because the leftover of an empty
distribution is `score * 0 = 0`). -/
def give_score_to_assignments (assignment_names : List String)
    (student : String → ℚ) (score : ℚ) (points_out_of : String → ℚ) :
    String → ℚ :=
  let distro := point_distro assignment_names points_out_of
  let points_total := (distro.map Prod.fst).sum
  let res := distribute student (score * points_total) distro
  if 0 < res.2 then
    match distro.getLast? with
    | some last => fun b => if b = last.2 then res.1 b + res.2 else res.1 b
    | none => res.1
  else res.1

theorem mem_of_getLast?_eq_some {α : Type} {l : List α} {a : α}
    (h : l.getLast? = some a) : a ∈ l := by
  induction l with
  | nil => simp at h
  | cons x xs ih =>
    cases xs with
    | nil =>
      simp [List.getLast?] at h
      simp [h]
    | cons y ys =>
      rw [List.getLast?_cons_cons] at h
      exact List.mem_cons_of_mem _ (ih h)

theorem distribute_frame (distro : List (ℚ × String)) :
    ∀ (student : String → ℚ) (left : ℚ) (b : String),
    b ∉ distro.map Prod.snd → (distribute student left distro).1 b = student b := by
  induction distro with
  | nil => intro student left b _; rfl
  | cons hd rest ih =>
    intro student left b hb
    obtain ⟨p, a⟩ := hd
    simp only [List.map_cons, List.mem_cons, not_or] at hb
    simp only [distribute]
    split
    · simp only [if_neg hb.1]
    · rw [ih _ _ b hb.2]
      simp only [if_neg hb.1]

theorem snd_point_distro_perm (assignment_names : List String)
    (points_out_of : String → ℚ) :
    List.Perm ((point_distro assignment_names points_out_of).map Prod.snd)
      assignment_names := by
  have h1 : List.Perm (point_distro assignment_names points_out_of)
      (assignment_names.map (fun a => (points_out_of a, a))) :=
    List.perm_insertionSort dist_le _
  have h2 := h1.map Prod.snd
  simpa [List.map_map, Function.comp_def] using h2

theorem fst_eq_points_of_mem_point_distro (assignment_names : List String)
    (points_out_of : String → ℚ) {x : ℚ × String}
    (hx : x ∈ point_distro assignment_names points_out_of) :
    x.1 = points_out_of x.2 ∧ x.2 ∈ assignment_names := by
  have h1 : List.Perm (point_distro assignment_names points_out_of)
      (assignment_names.map (fun a => (points_out_of a, a))) :=
    List.perm_insertionSort dist_le _
  have hx' := h1.mem_iff.mp hx
  obtain ⟨a, ha, rfl⟩ := List.mem_map.mp hx'
  exact ⟨rfl, ha⟩

theorem give_score_frame (assignment_names : List String)
    (student : String → ℚ) (score : ℚ) (points_out_of : String → ℚ)
    (b : String) (hb : b ∉ assignment_names) :
    give_score_to_assignments assignment_names student score points_out_of b
      = student b := by
  have hsnd : b ∉ (point_distro assignment_names points_out_of).map Prod.snd := by
    intro hmem
    exact hb ((snd_point_distro_perm assignment_names points_out_of).mem_iff.mp hmem)
  simp only [give_score_to_assignments]
  split
  · cases hlast : (point_distro assignment_names points_out_of).getLast? with
    | none => exact distribute_frame _ _ _ b hsnd
    | some last =>
      have hlast_mem := mem_of_getLast?_eq_some hlast
      have hb_ne : b ≠ last.2 := by
        intro hcontra
        exact hsnd (hcontra ▸ List.mem_map_of_mem Prod.snd hlast_mem)
      simp only [if_neg hb_ne]
      exact distribute_frame _ _ _ b hsnd
  · exact distribute_frame _ _ _ b hsnd

theorem distribute_spec (distro : List (ℚ × String)) :
    ∀ (student : String → ℚ) (left : ℚ),
    0 ≤ left → left ≤ (distro.map Prod.fst).sum → (∀ x ∈ distro, 0 < x.1) →
    (distro.map Prod.snd).Nodup → (∀ x ∈ distro, student x.2 = 0) →
    (distribute student left distro).2 = 0
    ∧ (∀ x ∈ distro, (distribute student left distro).1 x.2 ≤ x.1)
    ∧ (distro.map (fun x => (distribute student left distro).1 x.2)).sum = left := by
  induction distro with
  | nil =>
    intro student left h0 hle _ _ _
    have hz : left = 0 := le_antisymm (by simpa using hle) h0
    exact ⟨hz, by simp, by simp [hz, distribute]⟩
  | cons hd rest ih =>
    intro student left h0 hle hpos hnd hz
    obtain ⟨p, a⟩ := hd
    have hg_le_p : min p left ≤ p := min_le_left _ _
    have hg_le_left : min p left ≤ left := min_le_right _ _
    have hl1_nonneg : 0 ≤ left - min p left := by linarith
    have hnd2 : (a :: rest.map Prod.snd).Nodup := by simpa using hnd
    have hnd' : (rest.map Prod.snd).Nodup := (List.nodup_cons.mp hnd2).2
    have ha_not : a ∉ rest.map Prod.snd := (List.nodup_cons.mp hnd2).1
    have hne_of_mem : ∀ x ∈ rest, x.2 ≠ a := by
      intro x hx hcontra
      exact ha_not (hcontra ▸ List.mem_map_of_mem Prod.snd hx)
    by_cases hbr : left - min p left ≤ 0
    · have hres : distribute student left ((p, a) :: rest) =
          (fun b => if b = a then min p left else student b, left - min p left) := by
        simp only [distribute]
        rw [if_pos hbr]
      have hl1z : left - min p left = 0 := le_antisymm hbr hl1_nonneg
      have hgleft : min p left = left := by linarith
      refine ⟨by rw [hres]; exact hl1z, ?_, ?_⟩
      · intro x hx
        rcases List.mem_cons.mp hx with rfl | hx'
        · rw [hres]
          simp
        · rw [hres]
          have hxne : x.2 ≠ a := hne_of_mem x hx'
          simp only [if_neg hxne]
          rw [hz x (List.mem_cons_of_mem _ hx')]
          exact le_of_lt (hpos x (List.mem_cons_of_mem _ hx'))
      · rw [hres]
        simp only [List.map_cons, List.sum_cons]
        have hrest_sum : (rest.map (fun x =>
            (fun b => if b = a then min p left else student b) x.2)).sum = 0 := by
          apply List.sum_eq_zero
          intro y hy
          obtain ⟨x, hx, rfl⟩ := List.mem_map.mp hy
          simp only [if_neg (hne_of_mem x hx)]
          exact hz x (List.mem_cons_of_mem _ hx)
        rw [hrest_sum]
        simpa using hgleft
    · have hres : distribute student left ((p, a) :: rest) =
          distribute (fun b => if b = a then min p left else student b)
            (left - min p left) rest := by
        simp only [distribute]
        rw [if_neg hbr]
      have hbr' : 0 < left - min p left := lt_of_not_ge (by simpa using hbr)
      have hmin_eq : min p left = p := by
        rcases le_total p left with h | h
        · exact min_eq_left h
        · rw [min_eq_right h] at hbr'
          linarith
      have hle1 : left - min p left ≤ (rest.map Prod.fst).sum := by
        have hsum : (((p, a) :: rest).map Prod.fst).sum =
            p + (rest.map Prod.fst).sum := by simp
        rw [hsum] at hle
        rw [hmin_eq]
        linarith
      have hz' : ∀ x ∈ rest,
          (fun b => if b = a then min p left else student b) x.2 = 0 := by
        intro x hx
        simp only [if_neg (hne_of_mem x hx)]
        exact hz x (List.mem_cons_of_mem _ hx)
      have hpos' : ∀ x ∈ rest, 0 < x.1 := fun x hx =>
        hpos x (List.mem_cons_of_mem _ hx)
      obtain ⟨ih1, ih2, ih3⟩ := ih (fun b => if b = a then min p left else student b)
        (left - min p left) (le_of_lt hbr') hle1 hpos' hnd' hz'
      have hhead : (distribute (fun b => if b = a then min p left else student b)
          (left - min p left) rest).1 a = min p left := by
        rw [distribute_frame rest _ _ a ha_not]
        simp
      refine ⟨by rw [hres]; exact ih1, ?_, ?_⟩
      · intro x hx
        rcases List.mem_cons.mp hx with rfl | hx'
        · rw [hres]
          have : (distribute (fun b => if b = a then min p left else student b)
              (left - min p left) rest).1 (p, a).2 = min p left := hhead
          rw [this]
          exact hg_le_p
        · rw [hres]
          exact ih2 x hx'
      · rw [hres]
        simp only [List.map_cons, List.sum_cons]
        have : (distribute (fun b => if b = a then min p left else student b)
            (left - min p left) rest).1 (p, a).2 = min p left := hhead
        rw [this, ih3]
        ring

theorem fst_point_distro_sum (assignment_names : List String)
    (points_out_of : String → ℚ) :
    ((point_distro assignment_names points_out_of).map Prod.fst).sum =
      (assignment_names.map points_out_of).sum := by
  have h1 : List.Perm (point_distro assignment_names points_out_of)
      (assignment_names.map (fun a => (points_out_of a, a))) :=
    List.perm_insertionSort dist_le _
  have h2 := (h1.map Prod.fst).sum_eq
  rw [h2]
  simp [List.map_map, Function.comp_def]

/-- C2 (amended). For every target fraction `f` in `[0, 1]` and non-empty
duplicate-free list of assignments with positive maxima, provided every
assignment's prior score is zero, `_give_score_to_assignments` makes the
recomputed combined score exactly `f` and awards every assignment at most
its maximum (exact rational arithmetic).  The zero-prior proviso is forced
by the counterexample: the loop stops assigning once the distributable
points are exhausted, leaving later assignments' prior scores in place, so
a non-zero stale score makes the recomputed combined score differ from
`f`. -/
theorem c2_give_score_combined (assignment_names : List String)
    (student : String → ℚ) (f : ℚ) (points_out_of : String → ℚ)
    (hne : assignment_names ≠ []) (hnd : assignment_names.Nodup)
    (hpos : ∀ a ∈ assignment_names, 0 < points_out_of a)
    (hf0 : 0 ≤ f) (hf1 : f ≤ 1)
    (hz : ∀ a ∈ assignment_names, student a = 0) :
    combined_score assignment_names
      (give_score_to_assignments assignment_names student f points_out_of)
      points_out_of = f
    ∧ ∀ a ∈ assignment_names,
      give_score_to_assignments assignment_names student f points_out_of a
        ≤ points_out_of a := by
  have hmem : ∀ x ∈ point_distro assignment_names points_out_of,
      x.1 = points_out_of x.2 ∧ x.2 ∈ assignment_names := fun x hx =>
    fst_eq_points_of_mem_point_distro assignment_names points_out_of hx
  have hpos' : ∀ x ∈ point_distro assignment_names points_out_of, 0 < x.1 := by
    intro x hx
    rw [(hmem x hx).1]
    exact hpos x.2 (hmem x hx).2
  have hsndperm := snd_point_distro_perm assignment_names points_out_of
  have hsnd_nodup : ((point_distro assignment_names points_out_of).map Prod.snd).Nodup :=
    hsndperm.nodup_iff.mpr hnd
  have hz' : ∀ x ∈ point_distro assignment_names points_out_of, student x.2 = 0 :=
    fun x hx => hz x.2 (hmem x hx).2
  have hT := fst_point_distro_sum assignment_names points_out_of
  have hTpos : 0 < (assignment_names.map points_out_of).sum := by
    apply List.sum_pos
    · intro x hx
      obtain ⟨a, ha, rfl⟩ := List.mem_map.mp hx
      exact hpos a ha
    · simpa using hne
  have hSpos : 0 < ((point_distro assignment_names points_out_of).map Prod.fst).sum := by
    rw [hT]
    exact hTpos
  have h0 : 0 ≤ f * ((point_distro assignment_names points_out_of).map Prod.fst).sum :=
    mul_nonneg hf0 (le_of_lt hSpos)
  have hle : f * ((point_distro assignment_names points_out_of).map Prod.fst).sum ≤
      ((point_distro assignment_names points_out_of).map Prod.fst).sum := by
    calc f * ((point_distro assignment_names points_out_of).map Prod.fst).sum
        ≤ 1 * ((point_distro assignment_names points_out_of).map Prod.fst).sum :=
          mul_le_mul_of_nonneg_right hf1 (le_of_lt hSpos)
      _ = ((point_distro assignment_names points_out_of).map Prod.fst).sum :=
          one_mul _
  obtain ⟨hs1, hs2, hs3⟩ := distribute_spec (point_distro assignment_names points_out_of)
    student (f * ((point_distro assignment_names points_out_of).map Prod.fst).sum)
    h0 hle hpos' hsnd_nodup hz'
  have hgs : give_score_to_assignments assignment_names student f points_out_of =
      (distribute student
        (f * ((point_distro assignment_names points_out_of).map Prod.fst).sum)
        (point_distro assignment_names points_out_of)).1 := by
    simp only [give_score_to_assignments]
    rw [hs1]
    simp
  constructor
  · rw [hgs]
    unfold combined_score sum_scores
    have hperm2 : List.Perm
        (assignment_names.map (distribute student
          (f * ((point_distro assignment_names points_out_of).map Prod.fst).sum)
          (point_distro assignment_names points_out_of)).1)
        ((point_distro assignment_names points_out_of).map (fun x =>
          (distribute student
            (f * ((point_distro assignment_names points_out_of).map Prod.fst).sum)
            (point_distro assignment_names points_out_of)).1 x.2)) := by
      have hp := hsndperm.symm.map (distribute student
        (f * ((point_distro assignment_names points_out_of).map Prod.fst).sum)
        (point_distro assignment_names points_out_of)).1
      simpa [List.map_map, Function.comp_def] using hp
    rw [hperm2.sum_eq, hs3, hT]
    exact mul_div_cancel_right₀ f (ne_of_gt hTpos)
  · intro a ha
    rw [hgs]
    have hx : (points_out_of a, a) ∈ point_distro assignment_names points_out_of := by
      have h1 : List.Perm (point_distro assignment_names points_out_of)
          (assignment_names.map (fun a => (points_out_of a, a))) :=
        List.perm_insertionSort dist_le _
      exact h1.mem_iff.mpr (List.mem_map_of_mem _ ha)
    exact hs2 (points_out_of a, a) hx

/-- C2, counterexample to the claim as stated: two assignments with maxima
10 and 20, target fraction 1/4, prior scores 0 and 18.  The loop assigns
15/2 to "A", exhausts the distributable points and stops, leaving "B" at
its stale 18; the recomputed combined score is 17/20, not 1/4, even though
the claim's hypotheses (f in [0,1], non-empty list, positive maxima) all
hold at this input. -/
theorem c2_counterexample :
    (0 : ℚ) ≤ 1/4 ∧ (1/4 : ℚ) ≤ 1
    ∧ (∀ a ∈ ["A", "B"], (0 : ℚ) < (fun a => if a = "A" then (10 : ℚ) else 20) a)
    ∧ combined_score ["A", "B"]
        (give_score_to_assignments ["A", "B"]
          (fun b => if b = "B" then (18 : ℚ) else 0) (1/4)
          (fun a => if a = "A" then (10 : ℚ) else 20))
        (fun a => if a = "A" then (10 : ℚ) else 20) ≠ 1/4 := by
  have hcond : dist_le ((10:ℚ),"A") ((20:ℚ),"B") := Or.inl (by norm_num)
  have hsorted : point_distro ["A","B"] (fun a => if a = "A" then (10:ℚ) else 20)
      = [((10:ℚ),"A"), ((20:ℚ),"B")] := by
    simp [point_distro, List.insertionSort, List.orderedInsert, hcond]
  have hbranch : distribute (fun b => if b = "B" then (18 : ℚ) else 0) (15/2)
      [((10:ℚ),"A"), ((20:ℚ),"B")] =
      ((fun b => if b = "A" then min (10:ℚ) (15/2)
        else (if b = "B" then (18 : ℚ) else 0)), 15/2 - min (10:ℚ) (15/2)) := by
    simp only [distribute]
    rw [if_pos (by norm_num)]
  have hres2 : (distribute (fun b => if b = "B" then (18 : ℚ) else 0) (15/2)
      [((10:ℚ),"A"), ((20:ℚ),"B")]).2 = 0 := by
    rw [hbranch]
    norm_num
  have hresA : (distribute (fun b => if b = "B" then (18 : ℚ) else 0) (15/2)
      [((10:ℚ),"A"), ((20:ℚ),"B")]).1 "A" = 15/2 := by
    rw [hbranch]
    norm_num
  have hresB : (distribute (fun b => if b = "B" then (18 : ℚ) else 0) (15/2)
      [((10:ℚ),"A"), ((20:ℚ),"B")]).1 "B" = 18 := by
    rw [hbranch]
    simp
  have hval : combined_score ["A", "B"]
      (give_score_to_assignments ["A", "B"]
        (fun b => if b = "B" then (18 : ℚ) else 0) (1/4)
        (fun a => if a = "A" then (10 : ℚ) else 20))
      (fun a => if a = "A" then (10 : ℚ) else 20) = 17/20 := by
    rw [combined_score, sum_scores, sum_scores]
    simp only [List.map_cons, List.map_nil, List.sum_cons, List.sum_nil]
    simp only [give_score_to_assignments, hsorted]
    norm_num [hres2, hresA, hresB]
    norm_num [show (("B":String) = "A") = False by simp]
  refine ⟨by norm_num, by norm_num, ?_, ?_⟩
  · intro a _
    dsimp only
    split_ifs <;> norm_num
  · rw [hval]
    norm_num

/-- Witness for `c2_give_score_combined` at a concrete input. -/
theorem c2_give_score_combined_witness :
    combined_score ["A", "B"]
      (give_score_to_assignments ["A", "B"] (fun _ => (0 : ℚ)) (1/4)
        (fun _ => (10 : ℚ)))
      (fun _ => (10 : ℚ)) = 1/4
    ∧ ∀ a ∈ ["A", "B"],
      give_score_to_assignments ["A", "B"] (fun _ => (0 : ℚ)) (1/4)
        (fun _ => (10 : ℚ)) a ≤ (fun _ => (10 : ℚ)) a :=
  c2_give_score_combined ["A", "B"] (fun _ => (0 : ℚ)) (1/4) (fun _ => (10 : ℚ))
    (by decide) (by decide) (by intro a _; norm_num) (by norm_num) (by norm_num)
    (by intro a _; rfl)

/-- Embeds Python `min(enumerate(midterm_scores), key=operator.itemgetter(1))`:
the (index, value) pair of the first minimal element.  Python's `min` keeps
the earliest element among equals, which this recursion reproduces: a later
element is preferred only when strictly smaller. -/
def argmin_first : List ℚ → Nat × ℚ
  | [] => (0, 0)
  | [v] => (0, v)
  | v :: w :: rest =>
    let m := argmin_first (w :: rest)
    if m.2 < v then (m.1 + 1, m.2) else (0, v)

theorem argmin_first_le (l : List ℚ) : ∀ x ∈ l, (argmin_first l).2 ≤ x := by
  induction l with
  | nil => intro x hx; cases hx
  | cons v rest ih =>
    cases rest with
    | nil =>
      intro x hx
      rcases List.mem_cons.mp hx with rfl | hx'
      · exact le_refl _
      · cases hx'
    | cons w t =>
      intro x hx
      simp only [argmin_first]
      split
      · rename_i hlt
        rcases List.mem_cons.mp hx with rfl | hx'
        · exact le_of_lt hlt
        · exact ih x hx'
      · rename_i hge
        rcases List.mem_cons.mp hx with rfl | hx'
        · exact le_refl _
        · exact le_trans (le_of_not_lt hge) (ih x hx')

/-- Embeds the per-student body of `_apply_midterm_mercy`: compute each
midterm group's combined score and the final group's, take the first lowest
midterm, and when it is strictly below the final's score redistribute the
final's score over that single group. -/
def apply_midterm_mercy_student (midterm_assignments : List (List String))
    (final_assignments : List String) (student points_out_of : String → ℚ) :
    String → ℚ :=
  let midterm_scores := midterm_assignments.map
    (fun assignments => combined_score assignments student points_out_of)
  let final_score := combined_score final_assignments student points_out_of
  let am := argmin_first midterm_scores
  if am.2 < final_score then
    give_score_to_assignments (midterm_assignments.getD am.1 []) student
      final_score points_out_of
  else student

/-- C8 (amended). The per-student mercy replacement touches at most the
single (first) lowest-scoring midterm group, and only when its combined
score is strictly below the final's: every column outside that group —
in particular every column of the other midterm groups and of the final
group, provided the groups are disjoint from the replaced one — keeps its
prior value, and with no strictly-lower midterm nothing changes at all.
The disjointness proviso is forced by the counterexample: the code writes
by column name, so a column shared between the replaced group and another
group is rewritten in both.  (The non-emptiness hypothesis mirrors
Python's `min` over a non-empty sequence; combined scores are as computed
by `_combined_score`.) -/
theorem c8_apply_midterm_mercy (midterms : List (List String))
    (finals : List String) (student points_out_of : String → ℚ)
    (_hne : midterms ≠ []) :
    (∀ s ∈ midterms.map (fun g => combined_score g student points_out_of),
      (argmin_first (midterms.map
        (fun g => combined_score g student points_out_of))).2 ≤ s)
    ∧ (¬ ((argmin_first (midterms.map
          (fun g => combined_score g student points_out_of))).2
          < combined_score finals student points_out_of) →
        apply_midterm_mercy_student midterms finals student points_out_of
          = student)
    ∧ ((argmin_first (midterms.map
          (fun g => combined_score g student points_out_of))).2
          < combined_score finals student points_out_of →
        ∀ c, c ∉ midterms.getD (argmin_first (midterms.map
            (fun g => combined_score g student points_out_of))).1 [] →
          apply_midterm_mercy_student midterms finals student points_out_of c
            = student c) := by
  refine ⟨fun s hs => argmin_first_le _ s hs, ?_, ?_⟩
  · intro hnot
    simp only [apply_midterm_mercy_student]
    rw [if_neg hnot]
  · intro hlt c hc
    simp only [apply_midterm_mercy_student]
    rw [if_pos hlt]
    exact give_score_frame _ student _ points_out_of c hc

/-- C8, counterexample to the claim as stated: one midterm group `["A"]`
and a final group `["A", "F"]` sharing the column "A".  The midterm's
combined score 0 is below the final's 1/2, so the code redistributes onto
"A", changing a column of the final group from 0 to 5 — the final group's
columns are not left unchanged when the groups overlap. -/
theorem c8_counterexample :
    "A" ∈ ["A", "F"]
    ∧ apply_midterm_mercy_student [["A"]] ["A", "F"]
        (fun b => if b = "F" then (10 : ℚ) else 0) (fun _ => (10 : ℚ)) "A" = 5
    ∧ (fun b => if b = "F" then (10 : ℚ) else 0) "A" = 0 := by
  have cm : combined_score ["A"] (fun b => if b = "F" then (10 : ℚ) else 0)
      (fun _ => (10 : ℚ)) = 0 := by
    simp [combined_score, sum_scores]
  have cf : combined_score ["A", "F"] (fun b => if b = "F" then (10 : ℚ) else 0)
      (fun _ => (10 : ℚ)) = 1/2 := by
    simp [combined_score, sum_scores]
    norm_num
  have hsorted : point_distro ["A"] (fun _ => (10 : ℚ)) = [((10:ℚ), "A")] := by
    simp [point_distro, List.insertionSort, List.orderedInsert]
  have hbranch : distribute (fun b => if b = "F" then (10 : ℚ) else 0) 5
      [((10:ℚ), "A")] =
      ((fun b => if b = "A" then min (10:ℚ) 5
        else (if b = "F" then (10 : ℚ) else 0)), 5 - min (10:ℚ) 5) := by
    simp only [distribute]
    rw [if_pos (by norm_num)]
  have hres2 : (distribute (fun b => if b = "F" then (10 : ℚ) else 0) 5
      [((10:ℚ), "A")]).2 = 0 := by
    rw [hbranch]
    norm_num
  have hresA : (distribute (fun b => if b = "F" then (10 : ℚ) else 0) 5
      [((10:ℚ), "A")]).1 "A" = 5 := by
    rw [hbranch]
    norm_num
  have hgs : give_score_to_assignments ["A"]
      (fun b => if b = "F" then (10 : ℚ) else 0) (1/2) (fun _ => (10 : ℚ)) "A"
      = 5 := by
    simp only [give_score_to_assignments, hsorted]
    norm_num [hres2, hresA]
  refine ⟨by simp, ?_, by simp⟩
  simp only [apply_midterm_mercy_student, List.map_cons, List.map_nil, cm, cf]
  rw [if_pos (by norm_num [argmin_first])]
  simpa [argmin_first] using hgs

/-- Witness for `c8_apply_midterm_mercy` at a concrete input where the
lowest midterm is not below the final, so nothing changes. -/
theorem c8_apply_midterm_mercy_witness :
    apply_midterm_mercy_student [["M"]] ["F"] (fun _ => (0 : ℚ))
      (fun _ => (10 : ℚ)) = (fun _ => (0 : ℚ)) :=
  (c8_apply_midterm_mercy [["M"]] ["F"] (fun _ => (0 : ℚ)) (fun _ => (10 : ℚ))
    (by decide)).2.1
    (by simp [combined_score, sum_scores, argmin_first])

/-! Embedding of `StudentMapping.edit_distance` (src/zygrader/grade_puller.py).

The Python method fills a `(len(seq2)+1) x (len(seq1)+1)` table row by row;
each cell is written once, before any read of it, so the fill is embedded
as the cell recurrence: row 0 is `0,1,...,len(seq1)`, each later row starts
at its row index, and cell `(i, j)` is the minimum of left+1, up+1 and
diagonal plus the mismatch cost of `seq2[i-1]` versus `seq1[j-1]`; the
result is the bottom-right cell.  The recursion is structural (rows built
from the previous row) so the table is kernel-computable. -/

/-- One row of the edit-distance table: `prev` is row `i`, and this is row
`i+1` built left to right (`table[i+1][0] = i+1` then the cell minimum). -/
def edt_row {α : Type} [DecidableEq α] (seq1 seq2 : List α) (i : Nat)
    (prev : Nat → Nat) : Nat → Nat
  | 0 => i + 1
  | j + 1 =>
    min (min (edt_row seq1 seq2 i prev j + 1) (prev (j + 1) + 1))
      (prev j + if seq2.get? i = seq1.get? j then 0 else 1)

/-- The filled table of `edit_distance`, row by row:
`edit_distance_table seq1 seq2 i j` is Python's `table[i][j]`. -/
def edit_distance_table {α : Type} [DecidableEq α] (seq1 seq2 : List α) :
    Nat → Nat → Nat
  | 0 => fun j => j
  | i + 1 => edt_row seq1 seq2 i (edit_distance_table seq1 seq2 i)

/-- Embeds `StudentMapping.edit_distance(seq1, seq2)`: the bottom-right
cell `table[-1][-1]` of the filled table. -/
def edit_distance {α : Type} [DecidableEq α] (seq1 seq2 : List α) : Nat :=
  edit_distance_table seq1 seq2 seq2.length seq1.length

/-- The classic Levenshtein distance, written as the standard recursion:
the reference definition the claim compares `edit_distance` against. -/
def levRef {α : Type} [DecidableEq α] : List α → List α → Nat
  | [], ys => ys.length
  | x :: xs, [] => (x :: xs).length
  | x :: xs, y :: ys =>
    min (min (levRef xs (y :: ys) + 1) (levRef (x :: xs) ys + 1))
      (levRef xs ys + if x = y then 0 else 1)

theorem levRef_nil_left {α : Type} [DecidableEq α] (ys : List α) :
    levRef ([] : List α) ys = ys.length := by
  simp [levRef]

theorem levRef_nil_right {α : Type} [DecidableEq α] (xs : List α) :
    levRef xs ([] : List α) = xs.length := by
  cases xs <;> simp [levRef]

theorem levRef_cons_cons {α : Type} [DecidableEq α] (x y : α) (xs ys : List α) :
    levRef (x :: xs) (y :: ys) =
      min (min (levRef xs (y :: ys) + 1) (levRef (x :: xs) ys + 1))
        (levRef xs ys + if x = y then 0 else 1) := by
  simp [levRef]

theorem levRef_le_cons_right {α : Type} [DecidableEq α] (xs ys : List α) (y : α) :
    levRef xs (y :: ys) ≤ levRef xs ys + 1 := by
  cases xs with
  | nil => simp [levRef_nil_left]
  | cons x xs' =>
    rw [levRef_cons_cons]
    exact le_trans (min_le_left _ _) (min_le_right _ _)

theorem levRef_le_cons_left {α : Type} [DecidableEq α] (xs ys : List α) (x : α) :
    levRef (x :: xs) ys ≤ levRef xs ys + 1 := by
  cases ys with
  | nil => simp [levRef_nil_right, levRef_nil_left]
  | cons y ys' =>
    rw [levRef_cons_cons]
    exact le_trans (min_le_left _ _) (min_le_left _ _)

theorem levRef_cons_right_le {α : Type} [DecidableEq α] (xs ys : List α) (y : α) :
    levRef xs ys ≤ levRef xs (y :: ys) + 1 := by
  induction xs with
  | nil => simp [levRef_nil_left]; omega
  | cons x xs' ih =>
    have h1 := levRef_le_cons_left xs' ys x
    have h2 := levRef_cons_cons x y xs' ys
    omega

theorem levRef_cons_left_le {α : Type} [DecidableEq α] (xs ys : List α) (x : α) :
    levRef xs ys ≤ levRef (x :: xs) ys + 1 := by
  induction ys with
  | nil => simp [levRef_nil_right, levRef_nil_left]; omega
  | cons y ys' ih =>
    have h1 := levRef_le_cons_right xs ys' y
    have h2 := levRef_cons_cons x y xs ys'
    omega

theorem levRef_cons_same {α : Type} [DecidableEq α] (z : α) (xs ys : List α) :
    levRef (z :: xs) (z :: ys) = levRef xs ys := by
  have h1 := levRef_cons_right_le xs ys z
  have h2 := levRef_cons_left_le xs ys z
  have h3 := levRef_cons_cons z z xs ys
  rw [if_pos rfl] at h3
  omega

theorem levRef_append_left {α : Type} [DecidableEq α] (pre xs ys : List α) :
    levRef (pre ++ xs) (pre ++ ys) = levRef xs ys := by
  induction pre with
  | nil => rfl
  | cons p pre' ih =>
    simp only [List.cons_append]
    rw [levRef_cons_same, ih]

theorem levRef_self {α : Type} [DecidableEq α] (s : List α) : levRef s s = 0 := by
  induction s with
  | nil => simp [levRef_nil_left]
  | cons x s' ih => rw [levRef_cons_same, ih]

theorem levRef_single_sub {α : Type} [DecidableEq α] (pre post : List α)
    (a b : α) (hab : a ≠ b) :
    levRef (pre ++ a :: post) (pre ++ b :: post) = 1 := by
  rw [levRef_append_left, levRef_cons_cons, if_neg hab, levRef_self]
  omega

theorem min_add_three (x y z k : Nat) :
    (x ⊓ y ⊓ z) + k = (x + k) ⊓ (y + k) ⊓ (z + k) := by
  rw [← min_add_add_right, ← min_add_add_right]

theorem min9_shuffle (A B C D E F G H I c1 c2 : Nat) :
    ((A + 1) ⊓ (D + 1) ⊓ (G + c2) + 1) ⊓ ((B + 1) ⊓ (E + 1) ⊓ (H + c2) + 1) ⊓
      ((C + 1) ⊓ (F + 1) ⊓ (I + c2) + c1) =
    ((A + 1) ⊓ (B + 1) ⊓ (C + c1) + 1) ⊓ ((D + 1) ⊓ (E + 1) ⊓ (F + c1) + 1) ⊓
      ((G + 1) ⊓ (H + 1) ⊓ (I + c1) + c2) := by
  rw [min_add_three, min_add_three, min_add_three, min_add_three, min_add_three,
    min_add_three]
  ring_nf
  ac_rfl

theorem levRef_append_single_fuel {α : Type} [DecidableEq α] :
    ∀ (n : Nat) (xs ys : List α) (a b : α), xs.length + ys.length ≤ n →
    levRef (xs ++ [a]) (ys ++ [b]) =
      min (min (levRef xs (ys ++ [b]) + 1) (levRef (xs ++ [a]) ys + 1))
        (levRef xs ys + if a = b then 0 else 1) := by
  intro n
  induction n with
  | zero =>
    intro xs ys a b hlen
    have hxs : xs = [] := List.length_eq_zero.mp (by omega)
    have hys : ys = [] := List.length_eq_zero.mp (by omega)
    subst hxs hys
    simp only [List.nil_append]
    rw [levRef_cons_cons]
  | succ n ih =>
    intro xs ys a b hlen
    match xs, ys with
    | [], [] =>
      simp only [List.nil_append]
      rw [levRef_cons_cons]
    | [], y :: ys' =>
      simp only [List.nil_append, List.cons_append] at hlen ⊢
      rw [levRef_cons_cons a y ([] : List α) (ys' ++ [b])]
      have hihd := ih ([] : List α) ys' a b (by simp at hlen ⊢; omega)
      simp only [List.nil_append] at hihd
      rw [hihd]
      rw [levRef_cons_cons a y ([] : List α) ys']
      simp only [levRef_nil_left, List.length_append, List.length_cons,
        List.length_nil]
      omega
    | x :: xs', [] =>
      simp only [List.nil_append, List.cons_append] at hlen ⊢
      rw [levRef_cons_cons x b (xs' ++ [a]) ([] : List α)]
      have hihd := ih xs' ([] : List α) a b (by simp at hlen ⊢; omega)
      simp only [List.nil_append] at hihd
      rw [hihd]
      rw [levRef_cons_cons x b xs' ([] : List α)]
      simp only [levRef_nil_right, levRef_nil_left, List.length_append,
        List.length_cons, List.length_nil]
      omega
    | x :: xs', y :: ys' =>
      simp only [List.cons_append] at hlen ⊢
      have hlen' : xs'.length + ys'.length + 1 ≤ n := by
        simp only [List.length_cons] at hlen
        omega
      have ih1 := ih xs' (y :: ys') a b (by simp; omega)
      have ih2 := ih (x :: xs') ys' a b (by simp at hlen' ⊢; omega)
      have ih3 := ih xs' ys' a b (by omega)
      simp only [List.cons_append] at ih1 ih2
      rw [levRef_cons_cons x y (xs' ++ [a]) (ys' ++ [b]), ih1, ih2, ih3,
        levRef_cons_cons x y xs' (ys' ++ [b]), levRef_cons_cons x y (xs' ++ [a]) ys',
        levRef_cons_cons x y xs' ys']
      generalize levRef xs' (y :: (ys' ++ [b])) = A
      generalize levRef (x :: xs') (ys' ++ [b]) = B
      generalize levRef xs' (ys' ++ [b]) = C
      generalize levRef (xs' ++ [a]) (y :: ys') = D
      generalize levRef (x :: (xs' ++ [a])) ys' = E
      generalize levRef (xs' ++ [a]) ys' = F
      generalize levRef xs' (y :: ys') = G
      generalize levRef (x :: xs') ys' = H
      generalize levRef xs' ys' = I
      generalize (if x = y then (0 : Nat) else 1) = c1
      generalize (if a = b then (0 : Nat) else 1) = c2
      exact min9_shuffle A B C D E F G H I c1 c2

theorem levRef_append_single {α : Type} [DecidableEq α] (xs ys : List α) (a b : α) :
    levRef (xs ++ [a]) (ys ++ [b]) =
      min (min (levRef xs (ys ++ [b]) + 1) (levRef (xs ++ [a]) ys + 1))
        (levRef xs ys + if a = b then 0 else 1) :=
  levRef_append_single_fuel (xs.length + ys.length) xs ys a b le_rfl

theorem levRef_reverse_fuel {α : Type} [DecidableEq α] :
    ∀ (n : Nat) (xs ys : List α), xs.length + ys.length ≤ n →
    levRef xs.reverse ys.reverse = levRef xs ys := by
  intro n
  induction n with
  | zero =>
    intro xs ys hlen
    have hxs : xs = [] := List.length_eq_zero.mp (by omega)
    have hys : ys = [] := List.length_eq_zero.mp (by omega)
    subst hxs hys
    rfl
  | succ n ih =>
    intro xs ys hlen
    match xs, ys with
    | [], ys => simp [levRef_nil_left]
    | x :: xs', [] => simp [levRef_nil_right]
    | x :: xs', y :: ys' =>
      simp only [List.length_cons] at hlen
      rw [List.reverse_cons, List.reverse_cons, levRef_append_single]
      have e1 : levRef xs'.reverse (ys'.reverse ++ [y]) = levRef xs' (y :: ys') := by
        rw [show ys'.reverse ++ [y] = (y :: ys').reverse from (List.reverse_cons y ys').symm]
        exact ih xs' (y :: ys') (by simp; omega)
      have e2 : levRef (xs'.reverse ++ [x]) ys'.reverse = levRef (x :: xs') ys' := by
        rw [show xs'.reverse ++ [x] = (x :: xs').reverse from (List.reverse_cons x xs').symm]
        exact ih (x :: xs') ys' (by simp; omega)
      have e3 : levRef xs'.reverse ys'.reverse = levRef xs' ys' :=
        ih xs' ys' (by omega)
      rw [e1, e2, e3, levRef_cons_cons]

theorem levRef_reverse {α : Type} [DecidableEq α] (xs ys : List α) :
    levRef xs.reverse ys.reverse = levRef xs ys :=
  levRef_reverse_fuel (xs.length + ys.length) xs ys le_rfl

theorem levRef_symm_fuel {α : Type} [DecidableEq α] :
    ∀ (n : Nat) (xs ys : List α), xs.length + ys.length ≤ n →
    levRef xs ys = levRef ys xs := by
  intro n
  induction n with
  | zero =>
    intro xs ys hlen
    have hxs : xs = [] := List.length_eq_zero.mp (by omega)
    have hys : ys = [] := List.length_eq_zero.mp (by omega)
    subst hxs hys
    rfl
  | succ n ih =>
    intro xs ys hlen
    match xs, ys with
    | [], ys => simp [levRef_nil_left, levRef_nil_right]
    | x :: xs', [] => simp [levRef_nil_left, levRef_nil_right]
    | x :: xs', y :: ys' =>
      simp only [List.length_cons] at hlen
      have ih1 := ih xs' (y :: ys') (by simp; omega)
      have ih2 := ih (x :: xs') ys' (by simp; omega)
      have ih3 := ih xs' ys' (by omega)
      have hcost : (if x = y then 0 else 1) = (if y = x then 0 else 1) := by
        by_cases h : x = y
        · rw [if_pos h, if_pos h.symm]
        · rw [if_neg h, if_neg (fun h' => h h'.symm)]
      rw [levRef_cons_cons x y xs' ys', levRef_cons_cons y x ys' xs',
        ih1, ih2, ih3, hcost]
      omega

theorem levRef_symm {α : Type} [DecidableEq α] (xs ys : List α) :
    levRef xs ys = levRef ys xs :=
  levRef_symm_fuel (xs.length + ys.length) xs ys le_rfl

theorem take_succ_reverse {α : Type} (l : List α) (i : Nat) (h : i < l.length) :
    (l.take (i+1)).reverse = l[i] :: (l.take i).reverse := by
  rw [List.take_succ, List.getElem?_eq_getElem h]
  simp

theorem edit_distance_table_eq_levRef {α : Type} [DecidableEq α]
    (seq1 seq2 : List α) :
    ∀ (n i j : Nat), i + j ≤ n → i ≤ seq2.length → j ≤ seq1.length →
    edit_distance_table seq1 seq2 i j =
      levRef ((seq2.take i).reverse) ((seq1.take j).reverse) := by
  intro n
  induction n with
  | zero =>
    intro i j hij hi hj
    have hi0 : i = 0 := by omega
    have hj0 : j = 0 := by omega
    subst hi0 hj0
    simp [edit_distance_table, levRef_nil_left]
  | succ n ih =>
    intro i j hij hi hj
    match i, j with
    | 0, j =>
      have hT : edit_distance_table seq1 seq2 0 j = j := rfl
      rw [hT]
      simp only [List.take_zero, List.reverse_nil, levRef_nil_left,
        List.length_reverse, List.length_take]
      omega
    | i+1, 0 =>
      have hT : edit_distance_table seq1 seq2 (i+1) 0 = i + 1 := rfl
      rw [hT]
      simp only [List.take_zero, List.reverse_nil, levRef_nil_right,
        List.length_reverse, List.length_take]
      omega
    | i+1, j+1 =>
      have hi' : i < seq2.length := by omega
      have hj' : j < seq1.length := by omega
      have hT : edit_distance_table seq1 seq2 (i+1) (j+1) =
          min (min (edit_distance_table seq1 seq2 (i+1) j + 1)
            (edit_distance_table seq1 seq2 i (j+1) + 1))
          (edit_distance_table seq1 seq2 i j +
            if seq2.get? i = seq1.get? j then 0 else 1) := rfl
      rw [hT]
      rw [ih (i+1) j (by omega) hi (by omega),
        ih i (j+1) (by omega) (by omega) hj,
        ih i j (by omega) (by omega) (by omega)]
      rw [take_succ_reverse seq2 i hi', take_succ_reverse seq1 j hj']
      rw [levRef_cons_cons]
      have hcost : (if seq2.get? i = seq1.get? j then (0:Nat) else 1) =
          (if seq2[i] = seq1[j] then (0:Nat) else 1) := by
        rw [List.get?_eq_getElem?, List.get?_eq_getElem?,
          List.getElem?_eq_getElem hi', List.getElem?_eq_getElem hj']
        simp
      rw [hcost]
      generalize levRef (seq2[i] :: (seq2.take i).reverse) ((seq1.take j).reverse) = P
      generalize levRef ((seq2.take i).reverse) (seq1[j] :: (seq1.take j).reverse) = Q
      generalize levRef ((seq2.take i).reverse) ((seq1.take j).reverse) = R
      generalize (if seq2[i] = seq1[j] then (0:Nat) else 1) = c
      omega

/-- C7 (confirmed). `StudentMapping.edit_distance` computes the classic
Levenshtein distance: the table-filling embedding equals the reference
recursive definition `levRef` on every pair of sequences; in particular it
returns 0 on two identical sequences, and 1 on two sequences that differ
by exactly one substitution. -/
theorem c7_edit_distance_correct {α : Type} [DecidableEq α] (seq1 seq2 : List α) :
    edit_distance seq1 seq2 = levRef seq1 seq2
    ∧ edit_distance seq1 seq1 = 0
    ∧ ∀ (pre post : List α) (a b : α), a ≠ b →
        edit_distance (pre ++ a :: post) (pre ++ b :: post) = 1 := by
  have hmain : ∀ (s1 s2 : List α), edit_distance s1 s2 = levRef s1 s2 := by
    intro s1 s2
    have hb := edit_distance_table_eq_levRef s1 s2 (s2.length + s1.length)
      s2.length s1.length le_rfl le_rfl le_rfl
    rw [edit_distance, hb, List.take_length, List.take_length,
      levRef_reverse, levRef_symm]
  refine ⟨hmain seq1 seq2, ?_, ?_⟩
  · rw [hmain seq1 seq1, levRef_self]
  · intro pre post a b hab
    rw [hmain _ _]
    exact levRef_single_sub pre post a b hab

/-- Witness for `c7_edit_distance_correct` on concrete digit sequences. -/
theorem c7_edit_distance_correct_witness :
    edit_distance ['1', '0', '1'] ['1', '0', '1'] = 0
    ∧ edit_distance (['1'] ++ '0' :: ['1']) (['1'] ++ '9' :: ['1']) = 1 :=
  ⟨(c7_edit_distance_correct ['1', '0', '1'] ['1', '0', '1']).2.1,
   (c7_edit_distance_correct ([] : List Char) ([] : List Char)).2.2
     ['1'] ['1'] '0' '9' (by decide)⟩

/-! Embedding of `GradePuller.StudentMapping` (src/zygrader/grade_puller.py).

Python dictionary keys are either `int` values (parsed numeric ids) or
strings (netids, synthesized bad ids), embedded as the sum type `PyId`.
The canvas roster (`canvas_students`) and the zyBooks roster
(`zybook_students`) are association lists in dictionary insertion order;
the `unmatched_*_ids` Python sets are duplicate-free lists whose order
stands for the set's (arbitrary) iteration order.  A canvas row enters the
algorithm through its `"SIS Login ID"` and `"SIS User ID"` fields, a
zyBooks row through its `"Student ID"` field.  `mapping[canvas_id] =
zybook_students[zybook_id]` stores the row; since the row is recovered by
looking the id up in the (fixed) roster, the embedding records the
consumed `zybook_id` itself.  `set.remove` raises `KeyError` on a missing
element, embedded as `none`. -/

inductive PyId where
  | int (n : Int)
  | str (s : Str)
deriving DecidableEq

structure CanvasRow where
  sis_login_id : Str
  sis_user_id : Str
deriving DecidableEq

structure ZyRow where
  student_id : Str
deriving DecidableEq

structure MappingState where
  mapping : List (PyId × PyId)
  unmatched_canvas_ids : List PyId
  unmatched_zybook_ids : List PyId
deriving DecidableEq

/-- Embeds Python dictionary lookup on an association list (keys are
unique in a dictionary, so the first binding is the binding). -/
def alookup {κ β : Type} [DecidableEq κ] : List (κ × β) → κ → Option β
  | [], _ => none
  | (k, v) :: rest, key => if k = key then some v else alookup rest key

/-- Embeds Python `set.remove` minus its error case: removes the first
occurrence (sets have no duplicates). -/
def remove_first {κ : Type} [DecidableEq κ] : List κ → κ → List κ
  | [], _ => []
  | k :: rest, key => if k = key then rest else k :: remove_first rest key

/-- Embeds `StudentMapping._add_entry`: record the match and remove both
ids from the unmatched sets; `none` embeds the `KeyError` that
`set.remove` raises when an id is not in its unmatched set. -/
def add_entry (st : MappingState) (canvas_id zybook_id : PyId) :
    Option MappingState :=
  if canvas_id ∈ st.unmatched_canvas_ids ∧ zybook_id ∈ st.unmatched_zybook_ids then
    some ⟨st.mapping ++ [(canvas_id, zybook_id)],
      remove_first st.unmatched_canvas_ids canvas_id,
      remove_first st.unmatched_zybook_ids zybook_id⟩
  else none

/-- A fallible left fold: the embedding of a Python `for` loop whose body
may raise. -/
def opt_fold {σ β : Type} (f : σ → β → Option σ) : σ → List β → Option σ
  | st, [] => some st
  | st, b :: rest =>
    match f st b with
    | some st' => opt_fold f st' rest
    | none => none

/-- Embeds one iteration of the first `_create_mapping` loop: exact id
match against the full zyBooks dictionary, then netid match, else skip. -/
def phase1_step (zybook_students : List (PyId × ZyRow)) (st : MappingState)
    (entry : PyId × CanvasRow) : Option MappingState :=
  if (alookup zybook_students entry.1).isSome then
    add_entry st entry.1 entry.1
  else if (alookup zybook_students (PyId.str entry.2.sis_login_id)).isSome then
    add_entry st entry.1 (PyId.str entry.2.sis_login_id)
  else some st

/-- Decimal value of a digit string, the embedding of Python `int` on a
string of digits. -/
def natOfDigits (l : Str) : Nat :=
  l.foldl (fun n c => 10 * n + (c.toNat - 48)) 0

/-- Embeds the digit-filter and `[:-2]` suffix strip of the second loop:
`int("".join(real_id_chrs))`, or `none` for the `ValueError` on an empty
digit string (`continue`). -/
def strip_issue_digits (id_str : Str) : Option PyId :=
  let id_chrs := id_str.filter Char.isDigit
  let real_id_chrs := id_chrs.take (id_chrs.length - 2)
  if real_id_chrs = [] then none
  else some (PyId.int (Int.ofNat (natOfDigits real_id_chrs)))

/-- Embeds one iteration of the second `_create_mapping` loop (suffix
stripping): look the id's row up, strip the last two digits, and claim the
canvas id when it is still unmatched. -/
def phase2_step (zybook_students : List (PyId × ZyRow)) (st : MappingState)
    (bad_zybook_id : PyId) : Option MappingState :=
  match alookup zybook_students bad_zybook_id with
  | none => none
  | some zybook_student =>
    match strip_issue_digits zybook_student.student_id with
    | none => some st
    | some real_id =>
      if real_id ∈ st.unmatched_canvas_ids then add_entry st real_id bad_zybook_id
      else some st

/-- Embeds the candidate test of the fuzzy loop: the zyBooks string id has
no alphabetic characters and the edit distance between its digits and the
canvas `"SIS User ID"` string is below the cutoff 4. -/
def fuzzy_match_ok (canvas_students : List (PyId × CanvasRow))
    (zybook_students : List (PyId × ZyRow)) (canvas_id zybook_id : PyId) : Bool :=
  match alookup canvas_students canvas_id, alookup zybook_students zybook_id with
  | some canvas_student, some zybook_student =>
    if zybook_student.student_id.filter Char.isAlpha = [] then
      decide (edit_distance (zybook_student.student_id.filter Char.isDigit)
        canvas_student.sis_user_id < 4)
    else false
  | _, _ => false

/-- Embeds the third phase of `_create_mapping` (fuzzy matching):
`consider_pairs` maps each still-unmatched canvas id to the unmatched
zyBooks ids within edit distance, `double_seen` are the zyBooks ids
considered for more than one canvas id, and a pair is confirmed only when
the candidate list is a singleton whose id is not doubly seen. -/
def phase3 (canvas_students : List (PyId × CanvasRow))
    (zybook_students : List (PyId × ZyRow)) (st : MappingState) :
    Option MappingState :=
  let consider_pairs := (st.unmatched_canvas_ids.map (fun canvas_id =>
      (canvas_id, st.unmatched_zybook_ids.filter (fun zybook_id =>
        fuzzy_match_ok canvas_students zybook_students canvas_id zybook_id)))).filter
    (fun p => !p.2.isEmpty)
  let all_considered := (consider_pairs.map Prod.snd).flatten
  opt_fold (fun s p =>
    match p.2 with
    | [zybook_id] =>
      if 2 ≤ (all_considered.filter (fun z => z = zybook_id)).length then some s
      else add_entry s p.1 zybook_id
    | _ => some s) st consider_pairs

/-- Embeds `StudentMapping._create_mapping`, with the rosters' association
lists carrying the dictionary iteration orders and the initial unmatched
id lists carrying the set iteration orders (initialized from the rosters'
key order; the second loop iterates over a copy of the unmatched zyBooks
set taken at the start of that loop). -/
def create_mapping (canvas_students : List (PyId × CanvasRow))
    (zybook_students : List (PyId × ZyRow)) : Option MappingState :=
  let init : MappingState :=
    ⟨[], canvas_students.map Prod.fst, zybook_students.map Prod.fst⟩
  match opt_fold (phase1_step zybook_students) init canvas_students with
  | none => none
  | some st1 =>
    match opt_fold (phase2_step zybook_students) st1 st1.unmatched_zybook_ids with
    | none => none
    | some st2 => phase3 canvas_students zybook_students st2

/-- C3: the reconciler's result depends on the set iteration order.  The
same canvas roster (one student, id 101) and the same zyBooks roster (ids
10155 and 10166, both of whose `"Student ID"` strings strip to 101) are
reconciled under the two iteration orders of the unmatched-zyBooks set;
the suffix-stripping phase claims canvas id 101 for whichever zyBooks id
it sees first, so the two runs complete with different mappings — the
determinism the specification requires does not hold. -/
theorem c3_create_mapping_order_dependent :
    List.Perm
      [(PyId.int 10155, (⟨"10155".toList⟩ : ZyRow)),
        (PyId.int 10166, ⟨"10166".toList⟩)]
      [(PyId.int 10166, (⟨"10166".toList⟩ : ZyRow)),
        (PyId.int 10155, ⟨"10155".toList⟩)]
    ∧ (create_mapping [(PyId.int 101, ⟨"abc".toList, "101".toList⟩)]
        [(PyId.int 10155, ⟨"10155".toList⟩),
          (PyId.int 10166, ⟨"10166".toList⟩)]).map
        (fun st => alookup st.mapping (PyId.int 101))
      = some (some (PyId.int 10155))
    ∧ (create_mapping [(PyId.int 101, ⟨"abc".toList, "101".toList⟩)]
        [(PyId.int 10166, ⟨"10166".toList⟩),
          (PyId.int 10155, ⟨"10155".toList⟩)]).map
        (fun st => alookup st.mapping (PyId.int 101))
      = some (some (PyId.int 10166)) := by
  refine ⟨?_, ?_, ?_⟩ <;> decide

theorem remove_first_subset {κ : Type} [DecidableEq κ] {l : List κ} {k a : κ}
    (h : a ∈ remove_first l k) : a ∈ l := by
  induction l with
  | nil => cases h
  | cons x rest ih =>
    simp only [remove_first] at h
    split at h
    · exact List.mem_cons_of_mem _ h
    · rcases List.mem_cons.mp h with rfl | h'
      · exact List.mem_cons_self _ _
      · exact List.mem_cons_of_mem _ (ih h')

theorem remove_first_nodup {κ : Type} [DecidableEq κ] {l : List κ} (k : κ)
    (h : l.Nodup) : (remove_first l k).Nodup := by
  induction l with
  | nil => exact h
  | cons x rest ih =>
    obtain ⟨hx, hrest⟩ := List.nodup_cons.mp h
    simp only [remove_first]
    split
    · exact hrest
    · exact List.nodup_cons.mpr
        ⟨fun hmem => hx (remove_first_subset hmem), ih hrest⟩

theorem mem_remove_first {κ : Type} [DecidableEq κ] {l : List κ} {k a : κ}
    (hnd : l.Nodup) : a ∈ remove_first l k ↔ (a ∈ l ∧ a ≠ k) := by
  induction l with
  | nil => simp [remove_first]
  | cons x rest ih =>
    obtain ⟨hx, hrest⟩ := List.nodup_cons.mp hnd
    simp only [remove_first]
    split
    · rename_i hxk
      subst hxk
      constructor
      · intro h
        exact ⟨List.mem_cons_of_mem _ h, fun hak => hx (hak ▸ h)⟩
      · rintro ⟨hmem, hne⟩
        rcases List.mem_cons.mp hmem with rfl | h'
        · exact absurd rfl hne
        · exact h'
    · rename_i hxk
      constructor
      · intro h
        rcases List.mem_cons.mp h with rfl | h'
        · exact ⟨List.mem_cons_self _ _, hxk⟩
        · obtain ⟨hm, hn⟩ := (ih hrest).mp h'
          exact ⟨List.mem_cons_of_mem _ hm, hn⟩
      · rintro ⟨hmem, hne⟩
        rcases List.mem_cons.mp hmem with rfl | h'
        · exact List.mem_cons_self _ _
        · exact List.mem_cons_of_mem _ ((ih hrest).mpr ⟨h', hne⟩)

/-- The invariant of `_create_mapping` claimed by C10, over the canvas and
zyBooks key sets: the mapped canvas ids and the unmatched canvas ids
partition the canvas ids; each zyBooks id is consumed by at most one
mapping entry; and the unmatched zyBooks ids are exactly those never
consumed (plus bookkeeping duplicate-freeness of the unmatched lists). -/
def MappingInv (canvas_ids zybook_ids : List PyId) (st : MappingState) : Prop :=
  st.unmatched_canvas_ids.Nodup ∧
  st.unmatched_zybook_ids.Nodup ∧
  (st.mapping.map Prod.fst).Nodup ∧
  (st.mapping.map Prod.snd).Nodup ∧
  (∀ c, c ∈ canvas_ids ↔
    (c ∈ st.mapping.map Prod.fst ∨ c ∈ st.unmatched_canvas_ids)) ∧
  (∀ c, ¬(c ∈ st.mapping.map Prod.fst ∧ c ∈ st.unmatched_canvas_ids)) ∧
  (∀ z, z ∈ st.unmatched_zybook_ids ↔
    (z ∈ zybook_ids ∧ z ∉ st.mapping.map Prod.snd)) ∧
  (∀ z, z ∈ st.mapping.map Prod.snd → z ∈ zybook_ids)

theorem add_entry_inv {canvas_ids zybook_ids : List PyId} {st st' : MappingState}
    {c z : PyId} (hinv : MappingInv canvas_ids zybook_ids st)
    (h : add_entry st c z = some st') :
    MappingInv canvas_ids zybook_ids st' := by
  obtain ⟨h1, h2, h3, h4, h5, h6, h7, h8⟩ := hinv
  unfold add_entry at h
  split at h
  · rename_i hcz
    obtain ⟨hc, hz⟩ := hcz
    have hst' : st' = ⟨st.mapping ++ [(c, z)],
        remove_first st.unmatched_canvas_ids c,
        remove_first st.unmatched_zybook_ids z⟩ := (Option.some.inj h).symm
    subst hst'
    have hc_not_fst : c ∉ st.mapping.map Prod.fst := fun hmem => h6 c ⟨hmem, hc⟩
    have hz_not_snd : z ∉ st.mapping.map Prod.snd := ((h7 z).mp hz).2
    have hz_zids : z ∈ zybook_ids := ((h7 z).mp hz).1
    refine ⟨remove_first_nodup c h1, remove_first_nodup z h2, ?_, ?_, ?_, ?_, ?_, ?_⟩
    · simpa [List.nodup_append] using
        ⟨h3, fun x hx => hc_not_fst (List.mem_map_of_mem Prod.fst hx)⟩
    · simpa [List.nodup_append] using
        ⟨h4, fun x hx => hz_not_snd (List.mem_map_of_mem Prod.snd hx)⟩
    · intro x
      simp only [List.map_append, List.map_cons, List.map_nil,
        List.mem_append, List.mem_singleton, mem_remove_first h1]
      constructor
      · intro hx
        rcases (h5 x).mp hx with hfst | huc
        · exact Or.inl (Or.inl hfst)
        · by_cases hxc : x = c
          · exact Or.inl (Or.inr hxc)
          · exact Or.inr ⟨huc, hxc⟩
      · rintro ((hfst | rfl) | ⟨huc, _⟩)
        · exact (h5 x).mpr (Or.inl hfst)
        · exact (h5 x).mpr (Or.inr hc)
        · exact (h5 x).mpr (Or.inr huc)
    · intro x hx
      obtain ⟨hfst', huc'⟩ := hx
      rw [mem_remove_first h1] at huc'
      simp only [List.map_append, List.map_cons, List.map_nil, List.mem_append,
        List.mem_singleton] at hfst'
      rcases hfst' with hfst | rfl
      · exact h6 x ⟨hfst, huc'.1⟩
      · exact huc'.2 rfl
    · intro y
      simp only [List.map_append, List.map_cons, List.map_nil, List.mem_append,
        List.mem_singleton, mem_remove_first h2]
      constructor
      · rintro ⟨huz, hne⟩
        obtain ⟨hy_zids, hy_not⟩ := (h7 y).mp huz
        exact ⟨hy_zids, fun hmem => by
          rcases hmem with hmem | rfl
          · exact hy_not hmem
          · exact hne rfl⟩
      · rintro ⟨hy_zids, hy_not⟩
        have hy_not_snd : y ∉ st.mapping.map Prod.snd := fun hm => hy_not (Or.inl hm)
        have hy_ne : y ≠ z := fun h => hy_not (Or.inr h)
        exact ⟨(h7 y).mpr ⟨hy_zids, hy_not_snd⟩, hy_ne⟩
    · intro y hy
      simp only [List.map_append, List.map_cons, List.map_nil, List.mem_append,
        List.mem_singleton] at hy
      rcases hy with hy | rfl
      · exact h8 y hy
      · exact hz_zids
  · cases h

theorem opt_fold_inv {σ β : Type} (P : σ → Prop) (f : σ → β → Option σ)
    (hf : ∀ s b s', P s → f s b = some s' → P s') :
    ∀ (l : List β) (s s'), P s → opt_fold f s l = some s' → P s' := by
  intro l
  induction l with
  | nil =>
    intro s s' hs h
    simp only [opt_fold] at h
    exact (Option.some.inj h) ▸ hs
  | cons b rest ih =>
    intro s s' hs h
    simp only [opt_fold] at h
    split at h
    · rename_i s1 hs1
      exact ih s1 s' (hf s b s1 hs hs1) h
    · cases h

theorem phase1_step_inv {zybook : List (PyId × ZyRow)} {canvas_ids zybook_ids : List PyId}
    {st st' : MappingState} {e : PyId × CanvasRow}
    (hinv : MappingInv canvas_ids zybook_ids st)
    (h : phase1_step zybook st e = some st') :
    MappingInv canvas_ids zybook_ids st' := by
  unfold phase1_step at h
  split at h
  · exact add_entry_inv hinv h
  · split at h
    · exact add_entry_inv hinv h
    · exact (Option.some.inj h) ▸ hinv

theorem phase2_step_inv {zybook : List (PyId × ZyRow)} {canvas_ids zybook_ids : List PyId}
    {st st' : MappingState} {z : PyId}
    (hinv : MappingInv canvas_ids zybook_ids st)
    (h : phase2_step zybook st z = some st') :
    MappingInv canvas_ids zybook_ids st' := by
  unfold phase2_step at h
  split at h
  · cases h
  · split at h
    · exact (Option.some.inj h) ▸ hinv
    · split at h
      · exact add_entry_inv hinv h
      · exact (Option.some.inj h) ▸ hinv

theorem phase3_inv {canvas : List (PyId × CanvasRow)} {zybook : List (PyId × ZyRow)}
    {canvas_ids zybook_ids : List PyId} {st st' : MappingState}
    (hinv : MappingInv canvas_ids zybook_ids st)
    (h : phase3 canvas zybook st = some st') :
    MappingInv canvas_ids zybook_ids st' := by
  unfold phase3 at h
  refine opt_fold_inv (MappingInv canvas_ids zybook_ids) _ ?_ _ st st' hinv h
  intro s p s' hs hstep
  split at hstep
  · split at hstep
    · exact (Option.some.inj hstep) ▸ hs
    · exact add_entry_inv hs hstep
  · exact (Option.some.inj hstep) ▸ hs

/-- C10 (confirmed). After `_create_mapping` completes (and with the
dictionary key lists duplicate-free, as Python dictionaries guarantee):
the mapping's canvas ids together with `unmatched_canvas_ids` are exactly
the canvas ids and the two are disjoint; the mapping consumes each zyBooks
id at most once; `unmatched_zybook_ids` is exactly the set of zyBooks ids
never consumed; and the whole invariant (`MappingInv`) is preserved by
every successful `_add_entry` call. -/
theorem c10_create_mapping_invariant (canvas : List (PyId × CanvasRow))
    (zybook : List (PyId × ZyRow)) (st : MappingState)
    (hc : (canvas.map Prod.fst).Nodup) (hz : (zybook.map Prod.fst).Nodup)
    (hrun : create_mapping canvas zybook = some st) :
    (∀ c, c ∈ canvas.map Prod.fst ↔
      (c ∈ st.mapping.map Prod.fst ∨ c ∈ st.unmatched_canvas_ids))
    ∧ (∀ c, ¬(c ∈ st.mapping.map Prod.fst ∧ c ∈ st.unmatched_canvas_ids))
    ∧ (st.mapping.map Prod.snd).Nodup
    ∧ (∀ z, z ∈ st.unmatched_zybook_ids ↔
      (z ∈ zybook.map Prod.fst ∧ z ∉ st.mapping.map Prod.snd))
    ∧ (∀ s c z s', MappingInv (canvas.map Prod.fst) (zybook.map Prod.fst) s →
        add_entry s c z = some s' →
        MappingInv (canvas.map Prod.fst) (zybook.map Prod.fst) s') := by
  have hinit : MappingInv (canvas.map Prod.fst) (zybook.map Prod.fst)
      ⟨[], canvas.map Prod.fst, zybook.map Prod.fst⟩ := by
    refine ⟨hc, hz, by simp, by simp, ?_, ?_, ?_, ?_⟩
    · intro c
      simp
    · intro c
      simp
    · intro z
      simp
    · intro z
      simp
  simp only [create_mapping] at hrun
  split at hrun
  · cases hrun
  · rename_i st1 hp1
    split at hrun
    · cases hrun
    · rename_i st2 hp2
      have h1 : MappingInv (canvas.map Prod.fst) (zybook.map Prod.fst) st1 :=
        opt_fold_inv _ _ (fun s b s' hs hb => phase1_step_inv hs hb)
          canvas _ st1 hinit hp1
      have h2 : MappingInv (canvas.map Prod.fst) (zybook.map Prod.fst) st2 :=
        opt_fold_inv _ _ (fun s b s' hs hb => phase2_step_inv hs hb)
          st1.unmatched_zybook_ids st1 st2 h1 hp2
      have h3 : MappingInv (canvas.map Prod.fst) (zybook.map Prod.fst) st :=
        phase3_inv h2 hrun
      obtain ⟨_, _, _, i4, i5, i6, i7, _⟩ := h3
      exact ⟨i5, i6, i4, i7, fun s c z s' hs hadd => add_entry_inv hs hadd⟩

/-- Witness for `c10_create_mapping_invariant` on a one-student run that
matches in the exact-id phase. -/
theorem c10_create_mapping_invariant_witness :
    (∀ c, c ∈ ([(PyId.int 1, (⟨"a".toList, "1".toList⟩ : CanvasRow))].map Prod.fst) ↔
      (c ∈ (MappingState.mk [(PyId.int 1, PyId.int 1)] [] []).mapping.map Prod.fst
        ∨ c ∈ (MappingState.mk [(PyId.int 1, PyId.int 1)] [] []).unmatched_canvas_ids))
    ∧ (∀ c, ¬(c ∈ (MappingState.mk [(PyId.int 1, PyId.int 1)] [] []).mapping.map Prod.fst
        ∧ c ∈ (MappingState.mk [(PyId.int 1, PyId.int 1)] [] []).unmatched_canvas_ids))
    ∧ ((MappingState.mk [(PyId.int 1, PyId.int 1)] [] []).mapping.map Prod.snd).Nodup
    ∧ (∀ z, z ∈ (MappingState.mk [(PyId.int 1, PyId.int 1)] [] []).unmatched_zybook_ids ↔
      (z ∈ ([(PyId.int 1, (⟨"1".toList⟩ : ZyRow))].map Prod.fst)
        ∧ z ∉ (MappingState.mk [(PyId.int 1, PyId.int 1)] [] []).mapping.map Prod.snd))
    ∧ (∀ s c z s', MappingInv ([(PyId.int 1, (⟨"a".toList, "1".toList⟩ : CanvasRow))].map Prod.fst)
        ([(PyId.int 1, (⟨"1".toList⟩ : ZyRow))].map Prod.fst) s →
        add_entry s c z = some s' →
        MappingInv ([(PyId.int 1, (⟨"a".toList, "1".toList⟩ : CanvasRow))].map Prod.fst)
          ([(PyId.int 1, (⟨"1".toList⟩ : ZyRow))].map Prod.fst) s') :=
  c10_create_mapping_invariant [(PyId.int 1, ⟨"a".toList, "1".toList⟩)]
    [(PyId.int 1, ⟨"1".toList⟩)] (MappingState.mk [(PyId.int 1, PyId.int 1)] [] [])
    (by decide) (by decide) (by decide)
